import Mathlib

/-!
Shallow embedding of the `ls` command of gsh (`ls.go`) and its verified
properties.

The program lists the entries of the working directory.  It has three stages:
a collector (`getFiles`), an ordering step inside `main` (stable sort by
descending size, optionally followed by `reverse`) and a renderer
(`printFiles` for the grid, `listFiles` for the long format).

Conventions of the embedding

* A Go `string` is a Lean `String`.  `len` is the UTF-8 byte length
  (`String.utf8ByteSize`), the width used by `fmt` is the number of
  characters (`String.length`), as in Go.
* `os.FileInfo` is the record `FileInfo` of the values its methods return.
* Standard output is the `String` of everything written to it.
* A process that stops early (`log.Fatal`, a run-time panic) is an
  `Except.error` carrying an `Abort`.
-/

namespace Gsh

/-! ## Data model -/

/-- The calendar fields of a `time.Time` that `parseTime` reads. -/
structure Time where
  year : Int
  month : Nat
  day : Nat
  hour : Nat
  minute : Nat
deriving DecidableEq, Repr

/-- The values returned by the methods of an `os.FileInfo`:
`Name()`, `Size()` (an `int64`), `Mode()` rendered with `%s`, `ModTime()`
and `IsDir()`. -/
structure FileInfo where
  name : String
  size : Int
  mode : String
  modTime : Time
  isDir : Bool
deriving DecidableEq, Repr

/-- The five command line flags `-l`, `-S`, `-r`, `-R`, `-a`
(`listPtr`, `sortPtr`, `reversePtr`, `recursivePtr`, `allPtr`). -/
structure Options where
  list : Bool := false
  sort : Bool := false
  reverse : Bool := false
  recursive : Bool := false
  all : Bool := false
deriving DecidableEq, Repr

/-- The two ways the process stops before `main` returns: `log.Fatal`
(exit status 1) and a Go run-time panic. -/
inductive Abort where
  | fatal
  | panic
deriving DecidableEq, Repr

/-- The non-nil `error` values that occur: `filepath.SkipDir` and any other
error (a failed system call). -/
inductive GoError where
  | skipDir
  | other
deriving DecidableEq, Repr

deriving instance DecidableEq for Except

/-- A file system entry as the collector sees it: the result of `Lstat` on
it, whether reading it as a directory fails, and its children in the order
of their names, which is the order in which both `ioutil.ReadDir` and the
directory read of `filepath.Walk` return them.  The children of an entry
that is not a directory are never looked at. -/
inductive Node where
  | mk (info : FileInfo) (unreadable : Bool) (children : List Node)

/-- The `os.FileInfo` of an entry. -/
def Node.info : Node → FileInfo
  | .mk info _ _ => info

/-- The constant `Apostrophe`. -/
def Apostrophe : String := "'"

/-- The constant `NumberOfNamesPerLine`. -/
def NumberOfNamesPerLine : Nat := 4

/-- The constant `DirectorySymbol`: the Go literal `"\\"` is one backslash. -/
def DirectorySymbol : String := "\\"

/-! ## Formatting: the `fmt` verbs used by the program -/

/-- The verb `%Ns` (and the padding of `%Nd`): when the text has fewer than
`width` characters, spaces are written in front of it up to `width`; a longer
text is written as it is. -/
def padLeft (width : Nat) (s : String) : String :=
  String.mk (List.replicate (width - s.length) ' ') ++ s

/-- The verb `%d` on an integer: decimal digits, with a minus sign in front of
a negative number. -/
def fmtInt : Int → String
  | Int.ofNat n => Nat.repr n
  | Int.negSucc n => "-" ++ Nat.repr (n + 1)

/-- The verb `%02d` on a number that is not negative: decimal digits, with
zeros in front up to two characters. -/
def fmtZero2 (n : Nat) : String :=
  String.mk (List.replicate (2 - (Nat.repr n).length) '0') ++ Nat.repr n

/-- The library function `strings.Contains`: `substr` occurs in `s` as a
contiguous block. -/
def stringsContains (s substr : String) : Bool :=
  decide (substr.data <:+: s.data)

/-- The function `parseTime`:
`fmt.Sprintf("%02d/%02d/%d  %02d:%02d", month, day, year, hour, minute)`. -/
def parseTime (t : Time) : String :=
  fmtZero2 t.month ++ "/" ++ fmtZero2 t.day ++ "/" ++ fmtInt t.year ++ "  " ++
    fmtZero2 t.hour ++ ":" ++ fmtZero2 t.minute

/-- The function `parseName`. -/
def parseName (f : FileInfo) : String :=
  let name := ""
  let name :=
    if stringsContains f.name " " then name ++ (Apostrophe ++ f.name ++ Apostrophe)
    else name ++ f.name
  let name := if f.isDir then name ++ DirectorySymbol else name
  name

/-! ## The collector -/

/-- The function `isHidden`.  The first component is what `log.Println`
writes, the second the outcome.  The slice expression `filename[0:1]` panics
on the empty string (upper bound 1 beyond length 0).  On a non-empty name the
one-byte prefix equals `"."` exactly when the first character is `.`: a byte
below `0x80` is a whole character in UTF-8. -/
def isHidden (filename : String) : List String × Except Abort Bool :=
  let logged := if filename.utf8ByteSize = 0 then ["empty file name"] else []
  if filename.utf8ByteSize < 1 then (logged, .error .panic)
  else if filename.data.take 1 = ['.'] ∧ filename.utf8ByteSize > 1 then (logged, .ok true)
  else (logged, .ok false)

/-- The function `getDirPath`; `getwd` is the result of `os.Getwd`. -/
def getDirPath (getwd : Except GoError String) : Except Abort String :=
  match getwd with
  | .error _ => .error .fatal
  | .ok path => .ok path

/-- The closure passed to `filepath.Walk` in `getRecursiveFiles`, with the
captured slice `files` made an explicit state.  The `path` argument is not
used by the closure and is left out. -/
def walkFn (opts : Options) (info : FileInfo) (err : Option GoError)
    (files : List FileInfo) : Except Abort (Option GoError × List FileInfo) :=
  if err.isSome then .error .fatal
  else
    match (isHidden info.name).2 with
    | .error a => .error a
    | .ok hidden =>
      if hidden && info.isDir && !opts.all then .ok (some .skipDir, files)
      else
        match (isHidden info.name).2 with
        | .error a => .error a
        | .ok hidden2 =>
          if !hidden2 || opts.all then .ok (none, files ++ [info])
          else .ok (none, files)

mutual
/-- Model of the recursive helper `walk` of the Go library's
`path/filepath`: an entry that is not a directory is handed to the callback;
a directory is read, then handed to the callback together with the error of
the read, and when neither the read nor the callback reports an error its
children are walked in order. -/
def walk (fn : FileInfo → Option GoError → List FileInfo →
      Except Abort (Option GoError × List FileInfo)) :
    Node → List FileInfo → Except Abort (Option GoError × List FileInfo)
  | .mk info unreadable children, st =>
    if !info.isDir then fn info none st
    else
      let err := if unreadable then some GoError.other else none
      match fn info err st with
      | .error a => .error a
      | .ok (err1, st1) =>
        if err.isSome || err1.isSome then .ok (err1, st1)
        else walkChildren fn children st1
/-- The loop over the names of a directory inside the library's `walk`: an
error from a child stops the loop, except `SkipDir` from a directory. -/
def walkChildren (fn : FileInfo → Option GoError → List FileInfo →
      Except Abort (Option GoError × List FileInfo)) :
    List Node → List FileInfo → Except Abort (Option GoError × List FileInfo)
  | [], st => .ok (none, st)
  | c :: cs, st =>
    match walk fn c st with
    | .error a => .error a
    | .ok (none, st1) => walkChildren fn cs st1
    | .ok (some e, st1) =>
      if !c.info.isDir || e != GoError.skipDir then .ok (some e, st1)
      else walkChildren fn cs st1
end

/-- The result of `os.Lstat(".")` in the working directory: the entry itself
under the name `.`, the base name of the path it was asked for. -/
def lstatDot : Node → Node
  | .mk info unreadable children => .mk { info with name := "." } unreadable children

/-- Model of the Go library function `filepath.Walk` called on the root `.`:
`walk` from the root, where a final `SkipDir` is turned into `nil`. -/
def filepathWalk (fn : FileInfo → Option GoError → List FileInfo →
      Except Abort (Option GoError × List FileInfo))
    (cwd : Node) (st : List FileInfo) : Except Abort (Option GoError × List FileInfo) :=
  match walk fn (lstatDot cwd) st with
  | .error a => .error a
  | .ok (some GoError.skipDir, st1) => .ok (none, st1)
  | .ok (err, st1) => .ok (err, st1)

/-- The function `getRecursiveFiles`; `cwd` is the working directory. -/
def getRecursiveFiles (opts : Options) (cwd : Node) : Except Abort (List FileInfo) :=
  match filepathWalk (walkFn opts) cwd [] with
  | .error a => .error a
  | .ok (some _, _) => .error .fatal
  | .ok (none, files) => .ok files

/-- Model of the Go library function `ioutil.ReadDir` on the working
directory: the `os.FileInfo` of every child, in the order of their names. -/
def ioutilReadDir : Node → Except GoError (List FileInfo)
  | .mk _ unreadable children =>
    if unreadable then .error .other else .ok (children.map Node.info)

/-- The function `getNonRecursiveFiles`; `cwd` is the directory at `dirPath`. -/
def getNonRecursiveFiles (cwd : Node) : Except Abort (List FileInfo) :=
  match ioutilReadDir cwd with
  | .error _ => .error .fatal
  | .ok files => .ok files

/-- The function `getFiles`. -/
def getFiles (opts : Options) (cwd : Node) : Except Abort (List FileInfo) :=
  if opts.recursive then getRecursiveFiles opts cwd
  else getNonRecursiveFiles cwd

/-! ## The ordering step of `main` -/

/-- The comparison closure handed to `sort.SliceStable` in `main`:
`files[i].Size() > files[j].Size()`. -/
def sizeLess (a b : FileInfo) : Bool := decide (a.size > b.size)

/-- Insertion of `x` in front of an already sorted list: `x` moves right
past exactly the elements `y` with `less y x`, so it stays in front of every
element it is not strictly after. -/
def stableInsert {α : Type} (less : α → α → Bool) (x : α) : List α → List α
  | [] => [x]
  | y :: ys => if less y x then y :: stableInsert less x ys else x :: y :: ys

/-- Model of the Go library function `sort.SliceStable`, whose documented
contract is a sort by `less` that keeps equal elements in their original
order.  It is realised as a stable insertion sort; for a comparison by a
key, as here, the sorted and stable arrangement of a list is unique
(`stable_descending_unique`), so every sort that meets the contract returns
this list. -/
def sortSliceStable {α : Type} (less : α → α → Bool) : List α → List α
  | [] => []
  | x :: xs => stableInsert less x (sortSliceStable less xs)

/-- The loop of `reverse`: while `left < right`, swap `files[left]` and
`files[right]`, then `left+1`, `right-1`.  The indices are Go `int`s.  The
first argument bounds the number of iterations; `none` is returned when it
is used up or when an index is out of range.  The loop moves the elements
without reading them, so it is written for any type of element. -/
def reverseLoop {α : Type} : Nat → List α → Int → Int → Option (List α)
  | 0, files, left, right => if left < right then none else some files
  | fuel + 1, files, left, right =>
    if left < right then
      if 0 ≤ left then
        match files[left.toNat]?, files[right.toNat]? with
        | some a, some b =>
          reverseLoop fuel ((files.set left.toNat b).set right.toNat a) (left + 1) (right - 1)
        | _, _ => none
      else none
    else some files

/-- The function `reverse`: the loop started at `left = 0`,
`right = len(files)-1`. -/
def reverse {α : Type} (files : List α) : Option (List α) :=
  reverseLoop files.length files 0 ((files.length : Int) - 1)

/-- Lines 141-148 of `main`: when `-S` is set the list is sorted with
`sort.SliceStable` and, when `-r` is set as well, reversed; otherwise it is
left as collected. -/
def order (opts : Options) (files : List FileInfo) : Option (List FileInfo) :=
  if opts.sort then
    let sorted := sortSliceStable sizeLess files
    if opts.reverse then reverse sorted else some sorted
  else some files

/-- Lines 141-148 of `main` on entries that are kept apart from one another.
An element of the slice is an `os.FileInfo` object, of which the ordering
step reads `Size()` only, here `size`; two objects whose methods return the
same values are still two elements of the slice.  `order` is the case in
which an entry is the record of the values of its methods. -/
def orderEntries {α : Type} (size : α → Int) (opts : Options) (entries : List α) :
    Option (List α) :=
  if opts.sort then
    let sorted := sortSliceStable (fun a b => decide (size a > size b)) entries
    if opts.reverse then reverse sorted else some sorted
  else some entries

/-! ## The renderer -/

/-- The function `listFiles`: the text it writes to standard output. -/
def listFiles (files : List FileInfo) (dirPath : String) : String :=
  let out := "\n\tDirectory: " ++ dirPath ++ "\n\n\n"
  let out := out ++ "Mode \t\t LastWriteTime \t\t Length Name\n"
  let out := out ++ "---- \t\t ------------- \t\t ------ ----\n"
  files.foldl
    (fun out f =>
      let out := out ++ (f.mode ++ " \t" ++ parseTime f.modTime ++ " ")
      let out :=
        if f.isDir then out ++ "\t\t"
        else out ++ (padLeft 13 (fmtInt f.size) ++ " ")
      out ++ (parseName f ++ "\n"))
    out

/-- The loop of `printFiles` from index `i` on, appending to what has been
written so far. -/
def printFilesFrom : Nat → List FileInfo → String → String
  | _, [], out => out
  | i, f :: fs, out =>
    let out := if i % NumberOfNamesPerLine = 0 then out ++ "\n" else out
    printFilesFrom (i + 1) fs (out ++ padLeft 40 (parseName f))

/-- The function `printFiles`: the text it writes to standard output. -/
def printFiles (files : List FileInfo) : String :=
  printFilesFrom 0 files ""

/-! ## The program -/

/-- The function `main`: the text on standard output when the process runs
to its end, or the way it stops early.  `getwd` is the result of `os.Getwd`,
`cwd` the working directory itself.  Nothing is written to standard output
before the last point at which the process can stop. -/
def main (opts : Options) (getwd : Except GoError String) (cwd : Node) :
    Except Abort String :=
  match getDirPath getwd with
  | .error a => .error a
  | .ok dirPath =>
    match getFiles opts cwd with
    | .error a => .error a
    | .ok files =>
      match order opts files with
      | none => .error .panic
      | some files =>
        let out := if opts.list then listFiles files dirPath else printFiles files
        .ok (out ++ "\n" ++ "\n")

/-! ## Reference notions used to state the properties -/

/-- A hidden name in the words of the specification: it begins with `.` and
is longer than one character. -/
def hiddenName (name : String) : Bool :=
  decide (name.data.head? = some '.' ∧ name.length > 1)

mutual
/-- Every entry of the tree in depth-first order, parents before children and
children in their listed order, each paired with the names of the directories
above it, outermost first. -/
def walkEntries (above : List String) : Node → List (List String × FileInfo)
  | .mk info _ children =>
    (above, info) ::
      (if info.isDir then walkEntriesList (above ++ [info.name]) children else [])
/-- The entries of a list of sibling trees, one tree after the other. -/
def walkEntriesList (above : List String) : List Node → List (List String × FileInfo)
  | [] => []
  | c :: cs => walkEntries above c ++ walkEntriesList above cs
end

/-- An entry of the walk that is neither hidden by its own name nor below a
directory with a hidden name. -/
def shown (e : List String × FileInfo) : Bool :=
  !hiddenName e.2.name && e.1.all (fun a => !hiddenName a)

/-- An entry of the walk from the root whose own name is not hidden and none
of whose directories below the root has a hidden name; the first name of the
chain is the root itself and is left out. -/
def shownBelowRoot (e : List String × FileInfo) : Bool :=
  !hiddenName e.2.name && (e.1.drop 1).all (fun a => !hiddenName a)

mutual
/-- A tree on which the walk meets no failure: every name is non-empty and
every directory can be read. -/
def readable : Node → Bool
  | .mk info unreadable children =>
    decide (info.name ≠ "") && (!info.isDir || (!unreadable && readableList children))
/-- Every tree of a list of siblings is `readable`. -/
def readableList : List Node → Bool
  | [] => true
  | c :: cs => readable c && readableList cs
end

/-- The name as the specification words the quoting rule: between two
apostrophes when it contains a space character, as it is otherwise. -/
def quotedName (name : String) : String :=
  if ' ' ∈ name.data then "'" ++ name ++ "'" else name

/-- The texts of a list written one after the other. -/
def concatAll : List String → String
  | [] => ""
  | s :: rest => s ++ concatAll rest

/-- The three header lines of the long format. -/
def longHeader (dirPath : String) : String :=
  "\n\tDirectory: " ++ dirPath ++ "\n\n\n" ++
    "Mode \t\t LastWriteTime \t\t Length Name\n" ++
    "---- \t\t ------------- \t\t ------ ----\n"

/-- The size column of a long-format row: two tabs for a directory, the
size after `%13d` and a space for a file. -/
def sizeColumn (f : FileInfo) : String :=
  if f.isDir then "\t\t" else padLeft 13 (fmtInt f.size) ++ " "

/-- The text ends with two blank lines: it consists of two line breaks, or
its last two line breaks follow the line break that ends the line before
them. -/
def endsWithTwoBlankLines (out : String) : Bool :=
  decide (out.data = ['\n', '\n'] ∨ ['\n', '\n', '\n'] <:+ out.data)

/-! ## Example data: the directory of the specification's example -/

/-- A modification time used by the examples. -/
def exTime : Time := ⟨2024, 3, 9, 7, 5⟩

/-- The file `a.txt` of 10 bytes. -/
def exA : FileInfo := ⟨"a.txt", 10, "-rw-r--r--", exTime, false⟩

/-- The file `b.txt` of 5 bytes. -/
def exB : FileInfo := ⟨"b.txt", 5, "-rw-r--r--", exTime, false⟩

/-- The file `.hidden` of 3 bytes. -/
def exHidden : FileInfo := ⟨".hidden", 3, "-rw-r--r--", exTime, false⟩

/-- A directory with a space in its name. -/
def exDir : FileInfo := ⟨"my dir", 4096, "drwxr-xr-x", exTime, true⟩

/-- A directory with a hidden name. -/
def exGit : FileInfo := ⟨".git", 4096, "drwxr-xr-x", exTime, true⟩

/-- The directory of the specification's example: `.hidden`, `a.txt` and
`b.txt`, in the order of their names. -/
def exCwd : Node :=
  .mk ⟨"proj", 4096, "drwxr-xr-x", exTime, true⟩ false
    [.mk exHidden false [], .mk exA false [], .mk exB false []]

/-- A file whose name has 41 characters. -/
def exLongName : FileInfo :=
  ⟨"quarterly-report-2024-final-version-2.txt", 7, "-rw-r--r--", exTime, false⟩

/-- A file of 10^13 bytes. -/
def exHuge : FileInfo := ⟨"huge.bin", 10000000000000, "-rw-r--r--", exTime, false⟩

/-- A tree with a hidden directory `.git` holding `a.txt`, a file `a.txt`
and a directory `my dir` holding `.hidden` and `b.txt`. -/
def exTree : Node :=
  .mk ⟨"proj", 4096, "drwxr-xr-x", exTime, true⟩ false
    [.mk exGit false [.mk exA false []],
     .mk exA false [],
     .mk exDir false [.mk exHidden false [], .mk exB false []]]

/-- A file, not a directory, whose name ends with a backslash. -/
def exBackslashFile : FileInfo := ⟨"back\\", 7, "-rw-r--r--", exTime, false⟩

/-- A directory named `back`. -/
def exBackDir : FileInfo := ⟨"back", 4096, "drwxr-xr-x", exTime, true⟩

/-! ## Lemmas on the stable sort -/

theorem stableInsert_perm {α : Type} (less : α → α → Bool) (x : α) (l : List α) :
    (stableInsert less x l).Perm (x :: l) := by
  induction l with
  | nil => exact List.Perm.refl _
  | cons y ys ih =>
    unfold stableInsert
    split
    · exact (List.Perm.cons y ih).trans (List.Perm.swap x y ys)
    · exact List.Perm.refl _

theorem sortSliceStable_perm {α : Type} (less : α → α → Bool) (l : List α) :
    (sortSliceStable less l).Perm l := by
  induction l with
  | nil => exact List.Perm.refl _
  | cons x xs ih =>
    unfold sortSliceStable
    exact (stableInsert_perm less x _).trans (List.Perm.cons x ih)

/-- Inserting into a list with non-increasing sizes keeps the sizes
non-increasing. -/
theorem stableInsert_sizes (x : FileInfo) (l : List FileInfo)
    (h : l.Pairwise (fun a b => a.size ≥ b.size)) :
    (stableInsert sizeLess x l).Pairwise (fun a b => a.size ≥ b.size) := by
  induction l with
  | nil => simp [stableInsert]
  | cons y ys ih =>
    have hy := List.pairwise_cons.mp h
    unfold stableInsert
    by_cases hlt : sizeLess y x = true
    · rw [if_pos hlt]
      have hyx : y.size > x.size := by simpa [sizeLess] using hlt
      refine List.pairwise_cons.mpr ⟨?_, ih hy.2⟩
      intro b hb
      rcases List.mem_cons.mp ((stableInsert_perm sizeLess x ys).subset hb) with hbx | hbys
      · subst hbx; exact le_of_lt hyx
      · exact hy.1 b hbys
    · rw [if_neg hlt]
      have hyx : y.size ≤ x.size := by simpa [sizeLess] using hlt
      refine List.pairwise_cons.mpr ⟨?_, h⟩
      intro b hb
      rcases List.mem_cons.mp hb with hby | hbys
      · subst hby; exact hyx
      · exact le_trans (hy.1 b hbys) hyx

theorem sortSliceStable_sizes (l : List FileInfo) :
    (sortSliceStable sizeLess l).Pairwise (fun a b => a.size ≥ b.size) := by
  induction l with
  | nil => simp [sortSliceStable]
  | cons x xs ih =>
    unfold sortSliceStable
    exact stableInsert_sizes x _ ih

/-- Insertion does not change the order among the entries of one size. -/
theorem stableInsert_filter (s : Int) (x : FileInfo) (l : List FileInfo) :
    (stableInsert sizeLess x l).filter (fun f => decide (f.size = s)) =
      (x :: l).filter (fun f => decide (f.size = s)) := by
  induction l with
  | nil => simp [stableInsert]
  | cons y ys ih =>
    unfold stableInsert
    by_cases hlt : sizeLess y x = true
    · rw [if_pos hlt]
      have hyx : y.size > x.size := by simpa [sizeLess] using hlt
      rw [List.filter_cons, ih]
      by_cases hx : x.size = s
      · have hys : ¬ y.size = s := by omega
        simp [List.filter_cons, hx, hys]
      · simp [List.filter_cons, hx]
    · rw [if_neg hlt]

theorem sortSliceStable_filter (s : Int) (l : List FileInfo) :
    (sortSliceStable sizeLess l).filter (fun f => decide (f.size = s)) =
      l.filter (fun f => decide (f.size = s)) := by
  induction l with
  | nil => simp [sortSliceStable]
  | cons x xs ih =>
    unfold sortSliceStable
    rw [stableInsert_filter, List.filter_cons, List.filter_cons, ih]

/-- Two lists with non-increasing sizes that agree, for every size, on the
sequence of their entries of that size are equal: the stable descending
arrangement is unique. -/
theorem stable_descending_unique (l1 : List FileInfo) :
    ∀ l2 : List FileInfo,
      l1.Pairwise (fun a b => a.size ≥ b.size) →
      l2.Pairwise (fun a b => a.size ≥ b.size) →
      (∀ s : Int, l1.filter (fun f => decide (f.size = s)) =
        l2.filter (fun f => decide (f.size = s))) →
      l1 = l2 := by
  induction l1 with
  | nil =>
    intro l2 _ _ hf
    cases l2 with
    | nil => rfl
    | cons y t2 =>
      have h := hf y.size
      simp [List.filter_cons] at h
  | cons x t1 ih =>
    intro l2 h1 h2 hf
    cases l2 with
    | nil =>
      have h := hf x.size
      simp [List.filter_cons] at h
    | cons y t2 =>
      have hp1 := List.pairwise_cons.mp h1
      have hp2 := List.pairwise_cons.mp h2
      have hxy : x.size = y.size := by
        by_contra hne
        have hx : x ∈ (y :: t2).filter (fun f => decide (f.size = x.size)) := by
          rw [← hf x.size]; simp [List.filter_cons]
        have hy : y ∈ (x :: t1).filter (fun f => decide (f.size = y.size)) := by
          rw [hf y.size]; simp [List.filter_cons]
        have hx2 : x ∈ t2 := by
          rcases List.mem_cons.mp (List.mem_filter.mp hx).1 with h | h
          · exact absurd (congrArg FileInfo.size h) hne
          · exact h
        have hy2 : y ∈ t1 := by
          rcases List.mem_cons.mp (List.mem_filter.mp hy).1 with h | h
          · exact absurd (congrArg FileInfo.size h).symm hne
          · exact h
        have hle1 := hp1.1 y hy2
        have hle2 := hp2.1 x hx2
        omega
      have hhead := hf x.size
      simp only [List.filter_cons, decide_True, if_true, hxy.symm] at hhead
      obtain ⟨hx, htail⟩ := List.cons.inj hhead
      subst hx
      have hrest : ∀ s : Int, t1.filter (fun f => decide (f.size = s)) =
          t2.filter (fun f => decide (f.size = s)) := by
        intro s
        by_cases hs : x.size = s
        · subst hs; exact htail
        · have h := hf s
          simpa [List.filter_cons, hs] using h
      rw [ih t2 hp1.2 hp2.2 hrest]

/-! ## Lemmas on `reverse` -/

/-- The loop invariant of `reverse`: with the part `m` between the two
indices still to be reversed, the loop ends with `m` reversed in place. -/
theorem reverseLoop_middle {α : Type} (fuel : Nat) :
    ∀ (a m b : List α), m.length ≤ 2 * fuel + 1 →
      reverseLoop fuel (a ++ m ++ b) (a.length : Int) ((a.length : Int) + m.length - 1) =
        some (a ++ m.reverse ++ b) := by
  induction fuel with
  | zero =>
    intro a m b hm
    have h1 : m.length ≤ 1 := by omega
    have hrev : m.reverse = m := by
      match m, h1 with
      | [], _ => rfl
      | [_], _ => rfl
    have hlt : ¬ ((a.length : Int) < (a.length : Int) + m.length - 1) := by omega
    simp [reverseLoop, hlt, hrev]
  | succ fuel ih =>
    intro a m b hm
    by_cases h1 : m.length ≤ 1
    · have hrev : m.reverse = m := by
        match m, h1 with
        | [], _ => rfl
        | [_], _ => rfl
      have hlt : ¬ ((a.length : Int) < (a.length : Int) + m.length - 1) := by omega
      simp [reverseLoop, hlt, hrev]
    · match m, h1, hm with
      | [], h1, _ => exact absurd (Nat.zero_le 1) h1
      | x :: rest, h1, hm =>
        have hne : rest ≠ [] := by
          intro h; subst h; simp at h1
        obtain ⟨mid, y, hrest⟩ : ∃ mid y, rest = mid ++ [y] :=
          ⟨rest.dropLast, rest.getLast hne, (List.dropLast_append_getLast hne).symm⟩
        subst hrest
        have hlt : (a.length : Int) < (a.length : Int) + (x :: (mid ++ [y])).length - 1 := by
          simp only [List.length_cons, List.length_append, List.length_singleton, List.length_nil]
          omega
        have hr : ((a.length : Int) + (x :: (mid ++ [y])).length - 1).toNat =
            a.length + mid.length + 1 := by
          simp only [List.length_cons, List.length_append, List.length_singleton, List.length_nil]
          omega
        have hgl : (a ++ x :: (mid ++ [y]) ++ b)[a.length]? = some x := by
          rw [List.append_assoc, List.getElem?_append_right (le_refl _)]
          simp
        have hgr : (a ++ x :: (mid ++ [y]) ++ b)[a.length + mid.length + 1]? = some y := by
          have hsplit : a ++ x :: (mid ++ [y]) ++ b = (a ++ x :: mid) ++ (y :: b) := by simp
          rw [hsplit, List.getElem?_append_right (by simp; omega)]
          have hidx : a.length + mid.length + 1 - (a ++ x :: mid).length = 0 := by
            simp; omega
          rw [hidx]
          simp
        have hset : ((a ++ x :: (mid ++ [y]) ++ b).set a.length y).set
            (a.length + mid.length + 1) x = (a ++ [y]) ++ mid ++ (x :: b) := by
          have hsplit : a ++ x :: (mid ++ [y]) ++ b = a ++ (x :: (mid ++ (y :: b))) := by simp
          rw [hsplit, List.set_append_right _ _ (le_refl _)]
          simp only [Nat.sub_self, List.set_cons_zero]
          have hsplit2 : a ++ y :: (mid ++ y :: b) = (a ++ y :: mid) ++ (y :: b) := by simp
          rw [hsplit2, List.set_append_right _ _ (by simp; omega)]
          have hidx : a.length + mid.length + 1 - (a ++ y :: mid).length = 0 := by
            simp; omega
          rw [hidx]
          simp
        have hnext := ih (a ++ [y]) mid (x :: b) (by
          simp only [List.length_cons, List.length_append, List.length_singleton,
            List.length_nil] at hm
          omega)
        have hl1 : ((a.length : Int) + 1) = ((a ++ [y]).length : Int) := by simp
        have hr1 : ((a.length : Int) + (x :: (mid ++ [y])).length - 1 - 1) =
            ((a ++ [y]).length : Int) + mid.length - 1 := by
          simp only [List.length_cons, List.length_append, List.length_singleton,
            List.length_nil]
          push_cast
          omega
        unfold reverseLoop
        rw [if_pos hlt, if_pos (by omega : (0 : Int) ≤ a.length), hr, Int.toNat_ofNat, hgl, hgr]
        simp only []
        rw [hset, hl1, hr1, hnext]
        simp

/-- The loop of `reverse` ends within `len(files)` iterations, never indexes
out of range, and returns the end-to-end reversal. -/
theorem reverse_eq_reverse {α : Type} (files : List α) :
    reverse files = some files.reverse := by
  have h := reverseLoop_middle files.length [] files [] (by omega)
  simpa [reverse] using h

/-! ## The ordering step: sort by size, reverse -/

/-- Claim C1.  With `-S` set and `-r` not set, the ordering step of `main`
returns a list whose sizes are non-increasing, which is a rearrangement of the
input, and in which, for every size, the entries of that size stand in the
same order as in the input; it is the only list with non-increasing sizes
that keeps those orders: the stable descending sort by size. -/
theorem order_sort_is_stable_descending (opts : Options) (files : List FileInfo)
    (hS : opts.sort = true) (hr : opts.reverse = false) :
    ∃ out, order opts files = some out ∧
      (out.map FileInfo.size).Pairwise (fun s t => s ≥ t) ∧
      out.Perm files ∧
      (∀ s : Int, out.filter (fun f => decide (f.size = s)) =
        files.filter (fun f => decide (f.size = s))) ∧
      ∀ other : List FileInfo,
        (other.map FileInfo.size).Pairwise (fun s t => s ≥ t) →
        (∀ s : Int, other.filter (fun f => decide (f.size = s)) =
          files.filter (fun f => decide (f.size = s))) →
        other = out := by
  refine ⟨sortSliceStable sizeLess files, ?_, ?_, sortSliceStable_perm _ _, ?_, ?_⟩
  · simp [order, hS, hr]
  · exact List.pairwise_map.mpr (sortSliceStable_sizes files)
  · intro s
    exact sortSliceStable_filter s files
  · intro other hsorted hstable
    refine stable_descending_unique other _ (List.pairwise_map.mp hsorted)
      (sortSliceStable_sizes files) ?_
    intro s
    rw [hstable s, sortSliceStable_filter s files]

/-- Claim C2.  With `-S` and `-r` both set, the ordering step of `main`
returns the reversal of the stable descending sort, and its sizes are
non-decreasing. -/
theorem order_sort_reverse_is_ascending (opts : Options) (files : List FileInfo)
    (hS : opts.sort = true) (hr : opts.reverse = true) :
    ∃ out, order opts files = some out ∧
      out = (sortSliceStable sizeLess files).reverse ∧
      (out.map FileInfo.size).Pairwise (fun s t => s ≤ t) := by
  refine ⟨(sortSliceStable sizeLess files).reverse, ?_, rfl, ?_⟩
  · simp [order, hS, hr, reverse_eq_reverse]
  · rw [List.map_reverse, List.pairwise_reverse]
    exact List.pairwise_map.mpr (sortSliceStable_sizes files)

/-- Claim C3.  With `-S` not set, the ordering step of `main` returns the
list as collected whatever the value of `-r`, and the whole run of `main`
is the same with `-r` set and with `-r` not set. -/
theorem order_without_sort_ignores_reverse (opts : Options) (files : List FileInfo)
    (getwd : Except GoError String) (cwd : Node) (hS : opts.sort = false) :
    order opts files = some files ∧
      order { opts with reverse := true } files = order { opts with reverse := false } files ∧
      main { opts with reverse := true } getwd cwd =
        main { opts with reverse := false } getwd cwd := by
  refine ⟨by simp [order, hS], by simp [order, hS], ?_⟩
  have hfn : ∀ l s R a : Bool, walkFn ⟨l, s, true, R, a⟩ = walkFn ⟨l, s, false, R, a⟩ := by
    intro l s R a
    funext info err st
    rfl
  simp [main, order, hS, getFiles, getRecursiveFiles, hfn]

theorem order_sort_is_stable_descending_witness :
    ({ sort := true } : Options).sort = true ∧ ({ sort := true } : Options).reverse = false ∧
    ∃ out, order { sort := true } [exHidden, exA, exB, exA] = some out ∧
      (out.map FileInfo.size).Pairwise (fun s t => s ≥ t) ∧
      out.Perm [exHidden, exA, exB, exA] ∧
      (∀ s : Int, out.filter (fun f => decide (f.size = s)) =
        [exHidden, exA, exB, exA].filter (fun f => decide (f.size = s))) ∧
      ∀ other : List FileInfo,
        (other.map FileInfo.size).Pairwise (fun s t => s ≥ t) →
        (∀ s : Int, other.filter (fun f => decide (f.size = s)) =
          [exHidden, exA, exB, exA].filter (fun f => decide (f.size = s))) →
        other = out :=
  ⟨rfl, rfl, order_sort_is_stable_descending { sort := true } [exHidden, exA, exB, exA] rfl rfl⟩

theorem order_sort_reverse_is_ascending_witness :
    ({ sort := true, reverse := true } : Options).sort = true ∧
    ({ sort := true, reverse := true } : Options).reverse = true ∧
    ∃ out, order { sort := true, reverse := true } [exHidden, exA, exB] = some out ∧
      out = (sortSliceStable sizeLess [exHidden, exA, exB]).reverse ∧
      (out.map FileInfo.size).Pairwise (fun s t => s ≤ t) :=
  ⟨rfl, rfl,
    order_sort_reverse_is_ascending { sort := true, reverse := true } [exHidden, exA, exB] rfl rfl⟩

theorem order_without_sort_ignores_reverse_witness :
    ({ reverse := true } : Options).sort = false ∧
    order { reverse := true } [exHidden, exA, exB] = some [exHidden, exA, exB] ∧
    order { ({ reverse := true } : Options) with reverse := true } [exHidden, exA, exB] =
      order { ({ reverse := true } : Options) with reverse := false } [exHidden, exA, exB] ∧
    main { ({ reverse := true } : Options) with reverse := true } (.ok "/home/u") exCwd =
      main { ({ reverse := true } : Options) with reverse := false } (.ok "/home/u") exCwd :=
  ⟨rfl, order_without_sort_ignores_reverse { reverse := true } [exHidden, exA, exB]
    (.ok "/home/u") exCwd rfl⟩

/-! ## The hidden-name rule and the recursive collector -/

theorem utf8ByteSize_pos_of_ne_empty (name : String) (h : name ≠ "") :
    0 < name.utf8ByteSize := by
  obtain ⟨cs⟩ := name
  cases cs with
  | nil => exact absurd rfl h
  | cons c rest =>
    have hc := Char.utf8Size_pos c
    simp only [String.utf8ByteSize_mk, String.utf8Len_cons]
    omega

theorem utf8Len_pos_iff (cs : List Char) : 0 < String.utf8Len cs ↔ cs ≠ [] := by
  cases cs with
  | nil => simp
  | cons c rest =>
    have hc := Char.utf8Size_pos c
    simp only [String.utf8Len_cons, ne_eq, reduceCtorEq, not_false_eq_true, iff_true]
    omega

/-- On a non-empty name `isHidden` returns, without logging, whether the name
begins with `.` and is longer than one character. -/
theorem isHidden_of_ne_empty (name : String) (h : name ≠ "") :
    isHidden name = ([], .ok (hiddenName name)) := by
  obtain ⟨cs⟩ := name
  cases cs with
  | nil => exact absurd rfl h
  | cons c rest =>
    have hc := Char.utf8Size_pos c
    have hlen := utf8Len_pos_iff rest
    have h0 : ¬ (String.utf8Len rest + c.utf8Size = 0) := by omega
    have h1 : ¬ (String.utf8Len rest + c.utf8Size < 1) := by omega
    by_cases hdot : c = '.'
    · subst hdot
      have hsz : ('.' : Char).utf8Size = 1 := by decide
      by_cases hrest : rest = []
      · subst hrest
        decide
      · have hpos : 0 < String.utf8Len rest := hlen.mpr hrest
        have hl : 0 < rest.length := List.length_pos.mpr hrest
        have hgt : String.utf8Len rest + 1 > 1 := by omega
        simp [isHidden, hiddenName, hsz, hgt, hl, hpos]
    · simp [isHidden, hiddenName, h0, h1, hdot]

/-- The empty name makes `isHidden` log the warning and then panic. -/
theorem isHidden_empty : isHidden "" = (["empty file name"], .error .panic) := by
  decide

/-- What the callback of `getRecursiveFiles` does when it returns and `-a`
is not set: there was no error, the name is not empty, and either the entry is
a hidden directory (`SkipDir`, nothing appended), a hidden non-directory
(nothing appended) or not hidden (appended). -/
theorem walkFn_ok_cases (opts : Options) (hall : opts.all = false) (info : FileInfo)
    (err : Option GoError) (st : List FileInfo) (r : Option GoError) (st1 : List FileInfo)
    (h : walkFn opts info err st = .ok (r, st1)) :
    err = none ∧ info.name ≠ "" ∧
      ((hiddenName info.name = true ∧ info.isDir = true ∧ r = some .skipDir ∧ st1 = st) ∨
       (hiddenName info.name = true ∧ info.isDir = false ∧ r = none ∧ st1 = st) ∨
       (hiddenName info.name = false ∧ r = none ∧ st1 = st ++ [info])) := by
  cases err with
  | some e => simp [walkFn] at h
  | none =>
    by_cases hne : info.name = ""
    · simp [walkFn, hne, isHidden_empty] at h
    · refine ⟨rfl, hne, ?_⟩
      unfold walkFn at h
      rw [isHidden_of_ne_empty _ hne] at h
      cases hh : hiddenName info.name <;> cases hd : info.isDir <;>
        simp [hh, hd, hall] at h <;> simp [h]

mutual
/-- Every entry listed below a chain of directories carries that chain as
the beginning of its own chain of directories. -/
theorem walkEntries_above (above : List String) :
    ∀ (n : Node) (e : List String × FileInfo), e ∈ walkEntries above n → above <+: e.1
  | .mk info u children, e, he => by
    unfold walkEntries at he
    rcases List.mem_cons.mp he with h | h
    · subst h; exact List.prefix_refl _
    · by_cases hd : info.isDir = true
      · rw [if_pos hd] at h
        exact (List.prefix_append above [info.name]).trans
          (walkEntriesList_above (above ++ [info.name]) children e h)
      · rw [if_neg hd] at h
        exact absurd h (List.not_mem_nil e)
/-- The same for a list of sibling trees. -/
theorem walkEntriesList_above (above : List String) :
    ∀ (cs : List Node) (e : List String × FileInfo), e ∈ walkEntriesList above cs →
      above <+: e.1
  | [], e, he => by
    unfold walkEntriesList at he
    exact absurd he (List.not_mem_nil e)
  | c :: cs, e, he => by
    unfold walkEntriesList at he
    rcases List.mem_append.mp he with h | h
    · exact walkEntries_above above c e h
    · exact walkEntriesList_above above cs e h
end

/-- Below a directory with a hidden name no entry is `shown`. -/
theorem filter_shown_below_hidden (above : List String) (cs : List Node)
    (h : ∃ a ∈ above, hiddenName a = true) :
    (walkEntriesList above cs).filter shown = [] := by
  obtain ⟨a, ha, hh⟩ := h
  rw [List.filter_eq_nil_iff]
  intro e he
  have hpre := walkEntriesList_above above cs e he
  have hmem : a ∈ e.1 := hpre.subset ha
  simp only [shown, Bool.and_eq_true, Bool.not_eq_true', List.all_eq_true, not_and]
  intro _ hall
  have := hall a hmem
  simp [hh] at this

mutual
/-- The walk with `-a` not set, when it returns: it has appended exactly the
`shown` entries of the tree, in walk order, and it reports either no error or
`SkipDir` from a directory. -/
theorem walk_without_all (opts : Options) (hall : opts.all = false) :
    ∀ (n : Node) (above : List String) (st : List FileInfo) (r : Option GoError)
      (st1 : List FileInfo),
      (∀ a ∈ above, hiddenName a = false) →
      walk (walkFn opts) n st = .ok (r, st1) →
      st1 = st ++ ((walkEntries above n).filter shown).map Prod.snd ∧
        (r = none ∨ (r = some .skipDir ∧ n.info.isDir = true))
  | .mk info u children, above, st, r, st1, habove, h => by
    have hab : above.all (fun a => !hiddenName a) = true := by
      rw [List.all_eq_true]
      intro a ha
      simp [habove a ha]
    unfold walk at h
    unfold walkEntries
    by_cases hd : info.isDir = true
    · simp only [hd, Bool.not_true, Bool.false_eq_true, if_false] at h
      rw [if_pos hd]
      cases hfn : walkFn opts info (if u = true then some GoError.other else none) st with
      | error a => simp [hfn] at h
      | ok res =>
        obtain ⟨err1, st2⟩ := res
        obtain ⟨herr, _, hcases⟩ := walkFn_ok_cases opts hall info _ st err1 st2 hfn
        rw [herr] at hfn h
        simp only [hfn, Option.isSome_none, Bool.false_or] at h
        rcases hcases with ⟨hh, _, hr, hst⟩ | ⟨_, hnd, _, _⟩ | ⟨hh, hr, hst⟩
        · subst hr hst
          simp only [Option.isSome_some, if_true, Except.ok.injEq, Prod.mk.injEq] at h
          obtain ⟨h1, h2⟩ := h
          subst h1 h2
          have hnil := filter_shown_below_hidden (above ++ [info.name]) children
            ⟨info.name, by simp, hh⟩
          refine ⟨?_, Or.inr ⟨rfl, hd⟩⟩
          simp [List.filter_cons, shown, hh, hnil]
        · rw [hd] at hnd
          exact absurd hnd (by decide)
        · subst hr hst
          simp only [Option.isSome_none, Bool.false_eq_true, if_false] at h
          have habove2 : ∀ a ∈ above ++ [info.name], hiddenName a = false := by
            intro a ha
            rcases List.mem_append.mp ha with ha | ha
            · exact habove a ha
            · rw [List.mem_singleton.mp ha]; exact hh
          obtain ⟨hst, hr⟩ :=
            walkChildren_without_all opts hall children (above ++ [info.name]) _ r st1 habove2 h
          refine ⟨?_, Or.inl hr⟩
          rw [hst]
          simp [List.filter_cons, shown, hh, hab]
    · have hd2 : info.isDir = false := by simpa using hd
      simp only [hd2, Bool.not_false, if_true] at h
      rw [if_neg hd]
      obtain ⟨_, _, hcases⟩ := walkFn_ok_cases opts hall info _ st r st1 h
      rcases hcases with ⟨_, hdir, _, _⟩ | ⟨hh, _, hr, hst⟩ | ⟨hh, hr, hst⟩
      · rw [hd2] at hdir
        exact absurd hdir (by decide)
      · subst hr hst
        refine ⟨?_, Or.inl rfl⟩
        simp [List.filter_cons, shown, hh]
      · subst hr hst
        refine ⟨?_, Or.inl rfl⟩
        simp [List.filter_cons, shown, hh, hab]
/-- The same for the loop over the children of a directory, which reports
no error when it returns. -/
theorem walkChildren_without_all (opts : Options) (hall : opts.all = false) :
    ∀ (cs : List Node) (above : List String) (st : List FileInfo) (r : Option GoError)
      (st1 : List FileInfo),
      (∀ a ∈ above, hiddenName a = false) →
      walkChildren (walkFn opts) cs st = .ok (r, st1) →
      st1 = st ++ ((walkEntriesList above cs).filter shown).map Prod.snd ∧ r = none
  | [], above, st, r, st1, _, h => by
    unfold walkChildren at h
    unfold walkEntriesList
    simp only [Except.ok.injEq, Prod.mk.injEq] at h
    simp [h.1, h.2]
  | c :: cs, above, st, r, st1, habove, h => by
    unfold walkChildren at h
    unfold walkEntriesList
    cases hw : walk (walkFn opts) c st with
    | error a => simp [hw] at h
    | ok res =>
      obtain ⟨e, st2⟩ := res
      obtain ⟨hst2, he⟩ := walk_without_all opts hall c above st e st2 habove hw
      have hrest : walkChildren (walkFn opts) cs st2 = .ok (r, st1) := by
        rcases he with he | ⟨he, hdir⟩
        · subst he
          simpa [hw] using h
        · subst he
          simpa [hw, hdir] using h
      obtain ⟨hst1, hr⟩ := walkChildren_without_all opts hall cs above st2 r st1 habove hrest
      refine ⟨?_, hr⟩
      rw [hst1, hst2]
      simp [List.filter_append]
end

/-- On a non-empty name and without an error the callback returns, with no
error or with `SkipDir` for a directory. -/
theorem walkFn_returns (opts : Options) (info : FileInfo) (st : List FileInfo)
    (hne : info.name ≠ "") :
    ∃ r st1, walkFn opts info none st = .ok (r, st1) ∧
      (r = none ∨ (r = some .skipDir ∧ info.isDir = true)) := by
  unfold walkFn
  rw [isHidden_of_ne_empty _ hne]
  cases hiddenName info.name <;> cases hd : info.isDir <;> cases opts.all <;> simp

mutual
/-- On a `readable` tree the walk returns, with no error or with `SkipDir`
from a directory. -/
theorem walk_returns (opts : Options) :
    ∀ (n : Node) (st : List FileInfo), readable n = true →
      ∃ r st1, walk (walkFn opts) n st = .ok (r, st1) ∧
        (r = none ∨ (r = some .skipDir ∧ n.info.isDir = true))
  | .mk info u children, st, hn => by
    unfold readable at hn
    simp only [Bool.and_eq_true, decide_eq_true_eq, Bool.or_eq_true,
      Bool.not_eq_true'] at hn
    obtain ⟨hne, hdir⟩ := hn
    obtain ⟨r, st1, hfn, hr⟩ := walkFn_returns opts info st hne
    unfold walk
    by_cases hd : info.isDir = true
    · rcases hdir with hdir | ⟨hu, hcs⟩
      · rw [hd] at hdir
        exact absurd hdir (by decide)
      · simp only [hd, hu, Bool.not_true, Bool.false_eq_true, if_false, hfn,
          Option.isSome_none, Bool.false_or]
        rcases hr with hr | ⟨hr, _⟩
        · subst hr
          obtain ⟨st2, hw⟩ := walkChildren_returns opts children st1 hcs
          exact ⟨none, st2, by simpa using hw, Or.inl rfl⟩
        · subst hr
          exact ⟨some .skipDir, st1, by simp, Or.inr ⟨rfl, hd⟩⟩
    · have hd2 : info.isDir = false := by simpa using hd
      simp only [hd2, Bool.not_false, if_true]
      exact ⟨r, st1, hfn, by simpa [Node.info] using hr⟩
/-- On `readable` siblings the loop over the children returns with no
error. -/
theorem walkChildren_returns (opts : Options) :
    ∀ (cs : List Node) (st : List FileInfo), readableList cs = true →
      ∃ st1, walkChildren (walkFn opts) cs st = .ok (none, st1)
  | [], st, _ => ⟨st, by unfold walkChildren; rfl⟩
  | c :: cs, st, hcs => by
    unfold readableList at hcs
    simp only [Bool.and_eq_true] at hcs
    obtain ⟨r, st1, hw, hr⟩ := walk_returns opts c st hcs.1
    obtain ⟨st2, hrest⟩ := walkChildren_returns opts cs st1 hcs.2
    refine ⟨st2, ?_⟩
    unfold walkChildren
    rcases hr with hr | ⟨hr, hdir⟩
    · subst hr
      simpa [hw] using hrest
    · subst hr
      simpa [hw, hdir] using hrest
end

/-- On a `readable` working directory `getRecursiveFiles` returns a list. -/
theorem getRecursiveFiles_returns (opts : Options) (cwd : Node)
    (h : readable (lstatDot cwd) = true) :
    ∃ files, getRecursiveFiles opts cwd = .ok files := by
  obtain ⟨r, st1, hw, hr⟩ := walk_returns opts (lstatDot cwd) [] h
  unfold getRecursiveFiles filepathWalk
  rcases hr with hr | ⟨hr, _⟩
  · subst hr
    exact ⟨st1, by simp [hw]⟩
  · subst hr
    exact ⟨st1, by simp [hw]⟩

/-- With `-a` not set, the list returned by `getRecursiveFiles` is the walk
sequence restricted to the `shown` entries. -/
theorem getRecursiveFiles_without_all (opts : Options) (cwd : Node) (files : List FileInfo)
    (hall : opts.all = false) (h : getRecursiveFiles opts cwd = .ok files) :
    files = ((walkEntries [] (lstatDot cwd)).filter shown).map Prod.snd := by
  unfold getRecursiveFiles filepathWalk at h
  cases hw : walk (walkFn opts) (lstatDot cwd) [] with
  | error a => simp [hw] at h
  | ok res =>
    obtain ⟨r, st1⟩ := res
    obtain ⟨hst, hr⟩ := walk_without_all opts hall (lstatDot cwd) [] [] r st1
      (by intro a ha; exact absurd ha (List.not_mem_nil a)) hw
    rcases hr with hr | ⟨hr, _⟩
    · subst hr
      simp [hw] at h
      rw [← h, hst]
      simp
    · subst hr
      simp [hw] at h
      rw [← h, hst]
      simp

/-- Claim C4.  With `-a` not set, a list returned by `getRecursiveFiles`
consists, in order, of entries of the walk none of which has a hidden name
(begins with `.`, longer than one character) and none of which lies below a
directory with a hidden name; and on a tree whose names are non-empty and
whose directories can be read a list is returned. -/
theorem getRecursiveFiles_excludes_hidden (opts : Options) (cwd : Node)
    (hall : opts.all = false) :
    (∀ files, getRecursiveFiles opts cwd = .ok files →
      ∃ kept : List (List String × FileInfo),
        kept.Sublist (walkEntries [] (lstatDot cwd)) ∧
        files = kept.map Prod.snd ∧
        ∀ e ∈ kept, hiddenName e.2.name = false ∧ ∀ a ∈ e.1, hiddenName a = false) ∧
    (readable (lstatDot cwd) = true → ∃ files, getRecursiveFiles opts cwd = .ok files) := by
  refine ⟨?_, getRecursiveFiles_returns opts cwd⟩
  intro files h
  refine ⟨(walkEntries [] (lstatDot cwd)).filter shown, List.filter_sublist _,
    getRecursiveFiles_without_all opts cwd files hall h, ?_⟩
  intro e he
  have hs := (List.mem_filter.mp he).2
  simp only [shown, Bool.and_eq_true, Bool.not_eq_true', List.all_eq_true] at hs
  exact ⟨hs.1, hs.2⟩

theorem getRecursiveFiles_excludes_hidden_witness :
    ({ recursive := true } : Options).all = false ∧
    (∀ files, getRecursiveFiles { recursive := true } exTree = .ok files →
      ∃ kept : List (List String × FileInfo),
        kept.Sublist (walkEntries [] (lstatDot exTree)) ∧
        files = kept.map Prod.snd ∧
        ∀ e ∈ kept, hiddenName e.2.name = false ∧ ∀ a ∈ e.1, hiddenName a = false) ∧
    ∃ files, getRecursiveFiles { recursive := true } exTree = .ok files :=
  ⟨rfl, (getRecursiveFiles_excludes_hidden { recursive := true } exTree rfl).1,
    (getRecursiveFiles_excludes_hidden { recursive := true } exTree rfl).2 (by decide)⟩

/-! ## Rendering of names -/

theorem stringsContains_space (name : String) :
    stringsContains name " " = decide (' ' ∈ name.data) := by
  unfold stringsContains
  congr 1
  apply propext
  constructor
  · rintro ⟨s, t, h⟩
    rw [← h]
    simp
  · intro h
    obtain ⟨s, t, h⟩ := List.append_of_mem h
    exact ⟨s, t, by rw [h]; simp⟩

/-- The function `parseName` is the quoted name followed, for a directory,
by the directory marker. -/
theorem parseName_eq (f : FileInfo) :
    parseName f = if f.isDir then quotedName f.name ++ DirectorySymbol else quotedName f.name := by
  unfold parseName quotedName
  rw [stringsContains_space]
  by_cases hsp : ' ' ∈ f.name.data <;> cases f.isDir <;> simp [hsp, Apostrophe, String.append_assoc]

/-! ## The renderers as concatenations -/

theorem concatAll_append (xs ys : List String) :
    concatAll (xs ++ ys) = concatAll xs ++ concatAll ys := by
  induction xs with
  | nil => simp [concatAll]
  | cons x xs ih => simp [concatAll, ih, String.append_assoc]

/-- The loop of `listFiles` appends one row per entry, in list order. -/
theorem listFiles_foldl (files : List FileInfo) (out : String) :
    files.foldl
      (fun out f =>
        let out := out ++ (f.mode ++ " \t" ++ parseTime f.modTime ++ " ")
        let out :=
          if f.isDir then out ++ "\t\t"
          else out ++ (padLeft 13 (fmtInt f.size) ++ " ")
        out ++ (parseName f ++ "\n"))
      out =
    out ++ concatAll (files.map (fun f =>
      f.mode ++ " \t" ++ parseTime f.modTime ++ " " ++ sizeColumn f ++ parseName f ++ "\n")) := by
  induction files generalizing out with
  | nil => simp [concatAll]
  | cons f fs ih =>
    rw [List.foldl_cons, ih]
    cases hd : f.isDir <;> simp [concatAll, sizeColumn, hd, String.append_assoc]

/-- The output of `listFiles`: the header, then one row per entry. -/
theorem listFiles_eq_rows (files : List FileInfo) (dirPath : String) :
    listFiles files dirPath =
      longHeader dirPath ++ concatAll (files.map (fun f =>
        f.mode ++ " \t" ++ parseTime f.modTime ++ " " ++ sizeColumn f ++
          parseName f ++ "\n")) := by
  unfold listFiles
  simp only []
  rw [listFiles_foldl]
  rfl

/-- The loop of `printFiles` from index `i`: one field per entry, in list
order, with a line break in front of the entries whose index is a multiple of
four. -/
theorem printFilesFrom_eq (files : List FileInfo) (i : Nat) (out : String) :
    printFilesFrom i files out =
      out ++ concatAll ((files.enumFrom i).map (fun p =>
        (if p.1 % 4 = 0 then "\n" else "") ++ padLeft 40 (parseName p.2))) := by
  induction files generalizing i out with
  | nil => simp [printFilesFrom, concatAll]
  | cons f fs ih =>
    unfold printFilesFrom
    simp only []
    rw [ih]
    by_cases h4 : i % 4 = 0 <;>
      simp [concatAll, NumberOfNamesPerLine, h4, String.append_assoc]

theorem printFiles_eq_fields (files : List FileInfo) :
    printFiles files =
      concatAll (files.enum.map (fun p =>
        (if p.1 % 4 = 0 then "\n" else "") ++ padLeft 40 (parseName p.2))) := by
  unfold printFiles
  rw [printFilesFrom_eq]
  simp [List.enum]

/-! ## Quoting and the directory marker -/

/-- Claim C5.  The name rendered by `parseName` is wrapped in apostrophes
exactly when the name contains a space: with a space it is the apostrophe,
the name, the apostrophe (then the directory marker for a directory), without
a space it is the name itself (then the marker for a directory).  Both
renderers write, for every entry, the name rendered by `parseName`. -/
theorem parseName_quotes_iff_space (f : FileInfo) :
    (' ' ∈ f.name.data →
      parseName f = "'" ++ f.name ++ "'" ++ (if f.isDir then DirectorySymbol else "")) ∧
    (' ' ∉ f.name.data →
      parseName f = f.name ++ (if f.isDir then DirectorySymbol else "")) ∧
    (∀ files : List FileInfo, printFiles files =
      concatAll (files.enum.map (fun p =>
        (if p.1 % 4 = 0 then "\n" else "") ++ padLeft 40 (parseName p.2)))) ∧
    (∀ (files : List FileInfo) (dirPath : String), listFiles files dirPath =
      longHeader dirPath ++ concatAll (files.map (fun g =>
        g.mode ++ " \t" ++ parseTime g.modTime ++ " " ++ sizeColumn g ++
          parseName g ++ "\n"))) := by
  refine ⟨?_, ?_, printFiles_eq_fields, listFiles_eq_rows⟩
  · intro hsp
    rw [parseName_eq]
    cases f.isDir <;> simp [quotedName, hsp]
  · intro hsp
    rw [parseName_eq]
    cases f.isDir <;> simp [quotedName, hsp]

theorem parseName_quotes_iff_space_witness :
    parseName exDir =
      "'" ++ exDir.name ++ "'" ++ (if exDir.isDir then DirectorySymbol else "") ∧
    parseName exA = exA.name ++ (if exA.isDir then DirectorySymbol else "") :=
  ⟨(parseName_quotes_iff_space exDir).1 (by decide),
    (parseName_quotes_iff_space exA).2.1 (by decide)⟩

/-- Claim C6, as the code has it.  For a directory the name rendered by
`parseName` is the quoted name with the directory marker, one backslash,
appended at its end; for an entry that is not a directory it is the quoted
name with nothing appended, so it ends with a backslash exactly when the
name itself contains no space and ends with a backslash. -/
theorem parseName_directory_marker (f : FileInfo) :
    DirectorySymbol.data = ['\\'] ∧
    (f.isDir = true → parseName f = quotedName f.name ++ DirectorySymbol) ∧
    (f.isDir = false → parseName f = quotedName f.name) ∧
    (f.isDir = false →
      ((parseName f).data.getLast? = some '\\' ↔
        (' ' ∉ f.name.data ∧ f.name.data.getLast? = some '\\'))) := by
  refine ⟨rfl, ?_, ?_, ?_⟩
  · intro hd
    rw [parseName_eq, if_pos hd]
  · intro hd
    rw [parseName_eq, hd]
    rfl
  · intro hd
    have hp : parseName f = quotedName f.name := by
      rw [parseName_eq, hd]
      rfl
    rw [hp]
    by_cases hsp : ' ' ∈ f.name.data
    · have hq : (quotedName f.name).data = ("'" ++ f.name).data ++ [Char.ofNat 39] := by
        simp only [quotedName, hsp, if_true, String.data_append]
      rw [hq, List.getLast?_concat]
      constructor
      · intro h
        exact absurd (Option.some.inj h) (by decide)
      · intro h
        exact absurd hsp h.1
    · simp [quotedName, hsp]

theorem parseName_directory_marker_witness :
    parseName exDir = quotedName exDir.name ++ DirectorySymbol ∧
    parseName exA = quotedName exA.name ∧
    ((parseName exA).data.getLast? = some '\\' ↔
      (' ' ∉ exA.name.data ∧ exA.name.data.getLast? = some '\\')) :=
  ⟨(parseName_directory_marker exDir).2.1 rfl, (parseName_directory_marker exA).2.2.1 rfl,
    (parseName_directory_marker exA).2.2.2 rfl⟩

/-- Claim C6 as stated fails on a file whose own name ends with a backslash:
the file `back\` is rendered `back\`, with the backslash at its end, the
same text as the directory `back`. -/
theorem parseName_file_with_backslash :
    exBackslashFile.isDir = false ∧
    parseName exBackslashFile = "back\\" ∧
    (parseName exBackslashFile).data.getLast? = DirectorySymbol.data.head? ∧
    parseName exBackslashFile = parseName exBackDir := by
  decide

/-! ## The non-recursive collector -/

/-- Claim C7.  With `-R` not set `getFiles` returns exactly the entries of
the directory read, one per child and in its order, hidden ones included (and
stops with `log.Fatal` when the read fails); the result is the same with `-a`
set and with `-a` not set. -/
theorem getFiles_nonrecursive_ignores_all (opts : Options) (info : FileInfo)
    (unreadable : Bool) (children : List Node) (hR : opts.recursive = false) :
    getFiles opts (.mk info unreadable children) =
      (if unreadable then .error .fatal else .ok (children.map Node.info)) ∧
    getFiles { opts with all := true } (.mk info unreadable children) =
      getFiles { opts with all := false } (.mk info unreadable children) := by
  constructor
  · cases unreadable <;> simp [getFiles, hR, getNonRecursiveFiles, ioutilReadDir]
  · simp [getFiles, hR]

theorem getFiles_nonrecursive_ignores_all_witness :
    ({} : Options).recursive = false ∧
    getFiles {} (.mk exDir false [.mk exHidden false [], .mk exA false [], .mk exB false []]) =
      (if false then .error .fatal
        else .ok ([Node.mk exHidden false [], .mk exA false [], .mk exB false []].map
          Node.info)) ∧
    getFiles { ({} : Options) with all := true }
        (.mk exDir false [.mk exHidden false [], .mk exA false [], .mk exB false []]) =
      getFiles { ({} : Options) with all := false }
        (.mk exDir false [.mk exHidden false [], .mk exA false [], .mk exB false []]) :=
  ⟨rfl, getFiles_nonrecursive_ignores_all {} exDir false
    [.mk exHidden false [], .mk exA false [], .mk exB false []] rfl⟩

/-- Claim C8, evaluated on the code.  For the directory holding `.hidden`,
`a.txt` and `b.txt`, the run without any flag writes three names: `.hidden`
is listed in front of `a.txt` and `b.txt`. -/
theorem main_default_lists_hidden :
    main {} (.ok "/home/u") exCwd =
      .ok ("\n" ++ padLeft 40 ".hidden" ++ padLeft 40 "a.txt" ++ padLeft 40 "b.txt" ++
        "\n" ++ "\n") ∧
    getFiles {} exCwd = .ok [exHidden, exA, exB] ∧
    hiddenName exHidden.name = true := by
  decide

/-! ## The long format -/

theorem padLeft_length (width : Nat) (s : String) :
    (padLeft width s).length = max width s.length := by
  unfold padLeft
  rw [String.length_append, String.length_mk, List.length_replicate]
  omega

/-- Claim C9, as the code has it.  `listFiles` writes the header and then
one row per entry, in list order.  In a row the size column of a directory is
two tab characters, without any digit; the size column of a file is the
decimal size with spaces in front of it up to 13 characters, none when the
decimal has 13 characters or more, followed by one space. -/
theorem listFiles_rows_and_size_column (files : List FileInfo) (dirPath : String) :
    listFiles files dirPath =
      longHeader dirPath ++ concatAll (files.map (fun f =>
        f.mode ++ " \t" ++ parseTime f.modTime ++ " " ++ sizeColumn f ++
          parseName f ++ "\n")) ∧
    ∀ f : FileInfo,
      (f.isDir = true → sizeColumn f = "\t\t" ∧ ∀ c ∈ (sizeColumn f).data, c.isDigit = false) ∧
      (f.isDir = false →
        sizeColumn f =
          String.mk (List.replicate (13 - (fmtInt f.size).length) ' ') ++ fmtInt f.size ++ " " ∧
        (padLeft 13 (fmtInt f.size)).length = max 13 (fmtInt f.size).length) := by
  refine ⟨listFiles_eq_rows files dirPath, ?_⟩
  intro f
  constructor
  · intro hd
    have hcol : sizeColumn f = "\t\t" := by simp [sizeColumn, hd]
    refine ⟨hcol, ?_⟩
    rw [hcol]
    decide
  · intro hd
    exact ⟨by simp [sizeColumn, hd, padLeft], padLeft_length 13 _⟩

theorem listFiles_rows_and_size_column_witness :
    (sizeColumn exDir = "\t\t" ∧ ∀ c ∈ (sizeColumn exDir).data, c.isDigit = false) ∧
    (sizeColumn exA =
        String.mk (List.replicate (13 - (fmtInt exA.size).length) ' ') ++ fmtInt exA.size ++ " " ∧
      (padLeft 13 (fmtInt exA.size)).length = max 13 (fmtInt exA.size).length) :=
  ⟨((listFiles_rows_and_size_column [exDir, exA] "/home/u").2 exDir).1 rfl,
    ((listFiles_rows_and_size_column [exDir, exA] "/home/u").2 exA).2 rfl⟩

/-- Claim C9 as stated fails on a file of 10^13 bytes: its size takes 14
characters, so the size is not inside a field of 13 characters. -/
theorem listFiles_size_exceeds_field :
    listFiles [exHuge] "/d" =
      longHeader "/d" ++
        ("-rw-r--r-- \t03/09/2024  07:05 " ++ "10000000000000" ++ " " ++ "huge.bin" ++ "\n") ∧
    exHuge.isDir = false ∧
    fmtInt exHuge.size = "10000000000000" ∧
    (padLeft 13 (fmtInt exHuge.size)).length = 14 ∧
    ¬ ((padLeft 13 (fmtInt exHuge.size)).length = 13) := by
  decide

/-! ## The grid -/

/-- From an index that is a multiple of four, the first group of at most four
entries is written as one line break followed by its fields. -/
theorem fields_first_group (i : Nat) (hi : i % 4 = 0) (g rest : List FileInfo)
    (hg : g ≠ []) (hlen : g.length ≤ 4) :
    concatAll (((g ++ rest).enumFrom i).map (fun p =>
        (if p.1 % 4 = 0 then "\n" else "") ++ padLeft 40 (parseName p.2))) =
      ("\n" ++ concatAll (g.map (fun f => padLeft 40 (parseName f)))) ++
        concatAll ((rest.enumFrom (i + g.length)).map (fun p =>
          (if p.1 % 4 = 0 then "\n" else "") ++ padLeft 40 (parseName p.2))) := by
  have h1 : ¬ ((i + 1) % 4 = 0) := by omega
  have h2 : ¬ ((i + 1 + 1) % 4 = 0) := by omega
  have h3 : ¬ ((i + 1 + 1 + 1) % 4 = 0) := by omega
  match g, hg, hlen with
  | [a], _, _ =>
    simp [List.enumFrom_cons, concatAll, hi, String.append_assoc]
  | [a, b], _, _ =>
    simp [List.enumFrom_cons, concatAll, hi, h1, String.append_assoc, Nat.add_assoc]
  | [a, b, c], _, _ =>
    simp [List.enumFrom_cons, concatAll, hi, h1, h2, String.append_assoc, Nat.add_assoc]
  | [a, b, c, d], _, _ =>
    simp [List.enumFrom_cons, concatAll, hi, h1, h2, h3, String.append_assoc, Nat.add_assoc]
  | _ :: _ :: _ :: _ :: _ :: _, _, hlen => simp at hlen

/-- From an index that is a multiple of four, the fields split into groups of
four, the last one possibly shorter, each written after one line break. -/
theorem fields_in_groups (n : Nat) :
    ∀ (files : List FileInfo) (i : Nat), files.length = n → i % 4 = 0 →
      ∃ groups : List (List FileInfo),
        groups.flatten = files ∧
        (∀ g ∈ groups, 0 < g.length ∧ g.length ≤ 4) ∧
        (∀ g ∈ groups.dropLast, g.length = 4) ∧
        concatAll ((files.enumFrom i).map (fun p =>
            (if p.1 % 4 = 0 then "\n" else "") ++ padLeft 40 (parseName p.2))) =
          concatAll (groups.map (fun g =>
            "\n" ++ concatAll (g.map (fun f => padLeft 40 (parseName f))))) := by
  induction n using Nat.strong_induction_on with
  | _ n ih =>
    intro files i hn hi
    by_cases hnil : files = []
    · subst hnil
      exact ⟨[], rfl, by simp, by simp, by simp [concatAll]⟩
    · by_cases hshort : files.length ≤ 4
      · refine ⟨[files], by simp, ?_, by simp, ?_⟩
        · intro g hg
          rw [List.mem_singleton.mp hg]
          exact ⟨List.length_pos.mpr hnil, hshort⟩
        · have h := fields_first_group i hi files [] hnil hshort
          simpa [concatAll] using h
      · have hlen4 : (files.take 4).length = 4 := by
          rw [List.length_take]; omega
        have hne4 : files.take 4 ≠ [] := by
          intro h; rw [h] at hlen4; simp at hlen4
        have hdrop : (files.drop 4).length = n - 4 := by
          rw [List.length_drop, hn]
        have hdne : files.drop 4 ≠ [] := by
          intro h; rw [h] at hdrop; simp at hdrop; omega
        obtain ⟨groups, hflat, hsz, hfull, hout⟩ :=
          ih (n - 4) (by omega) (files.drop 4) (i + 4) hdrop (by omega)
        have hgne : groups ≠ [] := by
          intro h
          rw [h] at hflat
          exact hdne hflat.symm
        refine ⟨files.take 4 :: groups, ?_, ?_, ?_, ?_⟩
        · rw [List.flatten_cons, hflat, List.take_append_drop]
        · intro g hg
          rcases List.mem_cons.mp hg with h | h
          · rw [h, hlen4]; omega
          · exact hsz g h
        · intro g hg
          rw [List.dropLast_cons_of_ne_nil hgne] at hg
          rcases List.mem_cons.mp hg with h | h
          · rw [h, hlen4]
          · exact hfull g h
        · have h := fields_first_group i hi (files.take 4) (files.drop 4) hne4 (by omega)
          rw [List.take_append_drop, hlen4, hout] at h
          rw [h]
          simp [concatAll]

/-- Claim C10, as the code has it.  For a list of N entries `printFiles`
writes N fields in list order, with a line break in front of exactly the
entries whose 0-based index is a multiple of four: the output is a sequence of
groups, each a line break followed by the fields of at most four entries, and
every group but the last has exactly four.  A field is the rendered name with
spaces in front of it up to 40 characters, none when the rendered name has
40 characters or more. -/
theorem printFiles_fields_in_lines_of_four (files : List FileInfo) :
    printFiles files =
      concatAll (files.enum.map (fun p =>
        (if p.1 % 4 = 0 then "\n" else "") ++ padLeft 40 (parseName p.2))) ∧
    (files.enum.map (fun p =>
        (if p.1 % 4 = 0 then "\n" else "") ++ padLeft 40 (parseName p.2))).length =
      files.length ∧
    (∃ groups : List (List FileInfo),
      groups.flatten = files ∧
      (∀ g ∈ groups, 0 < g.length ∧ g.length ≤ 4) ∧
      (∀ g ∈ groups.dropLast, g.length = 4) ∧
      printFiles files =
        concatAll (groups.map (fun g =>
          "\n" ++ concatAll (g.map (fun f => padLeft 40 (parseName f)))))) ∧
    ∀ f : FileInfo,
      padLeft 40 (parseName f) =
          String.mk (List.replicate (40 - (parseName f).length) ' ') ++ parseName f ∧
        (padLeft 40 (parseName f)).length = max 40 (parseName f).length := by
  refine ⟨printFiles_eq_fields files, by simp, ?_, fun f => ⟨rfl, padLeft_length 40 _⟩⟩
  obtain ⟨groups, hflat, hsz, hfull, hout⟩ :=
    fields_in_groups files.length files 0 rfl (by decide)
  refine ⟨groups, hflat, hsz, hfull, ?_⟩
  rw [← hout]
  unfold printFiles
  rw [printFilesFrom_eq]
  simp

/-- Claim C10 as stated fails on a name of 41 characters: the field written
for it has 41 characters, not 40. -/
theorem printFiles_name_exceeds_field :
    printFiles [exLongName] = "\n" ++ "quarterly-report-2024-final-version-2.txt" ∧
    (parseName exLongName).length = 41 ∧
    (padLeft 40 (parseName exLongName)).length = 41 ∧
    ¬ ((padLeft 40 (parseName exLongName)).length = 40) := by
  decide

/-! ## The whole run: the end of the output -/

/-- The ordering step always returns a list, and that list is a rearrangement
of the one it was given. -/
theorem order_some_perm (opts : Options) (files : List FileInfo) :
    ∃ out, order opts files = some out ∧ out.Perm files := by
  unfold order
  cases opts.sort with
  | false => exact ⟨files, by simp, List.Perm.refl _⟩
  | true =>
    cases opts.reverse with
    | false => exact ⟨sortSliceStable sizeLess files, by simp, sortSliceStable_perm _ _⟩
    | true =>
      refine ⟨(sortSliceStable sizeLess files).reverse, by simp [reverse_eq_reverse], ?_⟩
      exact (List.reverse_perm _).trans (sortSliceStable_perm _ _)

/-- The output of `listFiles` ends with a line break. -/
theorem listFiles_ends_with_line_break (files : List FileInfo) (dirPath : String) :
    ∃ pre : String, listFiles files dirPath = pre ++ "\n" := by
  rw [listFiles_eq_rows]
  rcases List.eq_nil_or_concat files with hnil | ⟨init, last, hlast⟩
  · subst hnil
    refine ⟨"\n\tDirectory: " ++ dirPath ++ "\n\n\n" ++
      "Mode \t\t LastWriteTime \t\t Length Name\n" ++
      "---- \t\t ------------- \t\t ------ ----", ?_⟩
    simp only [List.map_nil, concatAll, String.append_empty, longHeader, String.append_assoc]
    rfl
  · subst hlast
    refine ⟨longHeader dirPath ++ concatAll (init.map (fun f =>
        f.mode ++ " \t" ++ parseTime f.modTime ++ " " ++ sizeColumn f ++
          parseName f ++ "\n")) ++
      (last.mode ++ " \t" ++ parseTime last.modTime ++ " " ++ sizeColumn last ++
        parseName last), ?_⟩
    simp only [List.concat_eq_append, List.map_append, List.map_cons, List.map_nil,
      concatAll_append, concatAll, String.append_empty, String.append_assoc]

/-- The output of `printFiles` on a list that is not empty ends with the field
of the last entry. -/
theorem printFilesFrom_ends_with_last (init : List FileInfo) (last : FileInfo) :
    ∀ (i : Nat) (out : String),
      ∃ pre : String, printFilesFrom i (init ++ [last]) out =
        pre ++ padLeft 40 (parseName last) := by
  induction init with
  | nil =>
    intro i out
    exact ⟨if i % NumberOfNamesPerLine = 0 then out ++ "\n" else out, by
      simp [printFilesFrom]⟩
  | cons f fs ih =>
    intro i out
    simp only [List.cons_append, printFilesFrom]
    exact ih _ _

/-- A field of `%40s` is not empty, and it ends with a line break exactly
when the text in it does. -/
theorem padLeft_forty_last (s : String) :
    ∃ (front : List Char) (c : Char), (padLeft 40 s).data = front ++ [c] ∧
      (c = '\n' ↔ s.data.getLast? = some '\n') := by
  rcases List.eq_nil_or_concat s.data with hnil | ⟨init, b, hb⟩
  · refine ⟨List.replicate 39 ' ', ' ', ?_, ?_⟩
    · have hlen : s.length = 0 := by simp [String.length, hnil]
      simp only [padLeft, String.data_append, hlen, hnil, List.append_nil, Nat.sub_zero]
      rfl
    · rw [hnil]
      constructor
      · intro h
        exact absurd h (by decide)
      · intro h
        exact absurd h (by simp)
  · rw [List.concat_eq_append] at hb
    refine ⟨List.replicate (40 - s.length) ' ' ++ init, b, ?_, ?_⟩
    · simp only [padLeft, String.data_append, hb, List.append_assoc]
    · rw [hb, List.getLast?_concat]
      constructor
      · intro h
        rw [h]
      · intro h
        exact Option.some.inj h

/-- Three line breaks end a text that ends with a character and two line
breaks exactly when that character is a line break. -/
theorem three_line_breaks_suffix (front : List Char) (c : Char) :
    ['\n', '\n', '\n'] <:+ front ++ [c, '\n', '\n'] ↔ c = '\n' := by
  constructor
  · rintro ⟨p, hp⟩
    have h := (List.append_inj' hp rfl).2
    simp only [List.cons.injEq, and_true] at h
    exact h.symm
  · intro h
    subst h
    exact ⟨front, rfl⟩

/-- Claim C11, as the code has it.  Whenever the working directory is found
and the entries are collected, `main` runs to its end in both rendering modes
and its standard output is the rendering of the ordered list followed by
exactly two line breaks, the two empty `fmt.Println()` calls.  In long mode,
and in grid mode on an empty list, the output ends with two blank lines.  In
grid mode on a list that is not empty the first of the two line breaks ends
the line of the last name, so that the output ends with two blank lines only
if the last rendered name itself ends with a line break. -/
theorem main_output_ends_with_two_line_breaks (opts : Options)
    (getwd : Except GoError String) (cwd : Node) (dirPath : String) (files : List FileInfo)
    (hwd : getwd = .ok dirPath) (hfiles : getFiles opts cwd = .ok files) :
    ∃ ordered out,
      order opts files = some ordered ∧
      main opts getwd cwd = .ok out ∧
      out = (if opts.list then listFiles ordered dirPath else printFiles ordered) ++
        "\n" ++ "\n" ∧
      ['\n', '\n'] <:+ out.data ∧
      (opts.list = true → endsWithTwoBlankLines out = true) ∧
      (opts.list = false → ordered = [] → endsWithTwoBlankLines out = true) ∧
      (opts.list = false → ∀ last, ordered.getLast? = some last →
        (endsWithTwoBlankLines out = true ↔ (parseName last).data.getLast? = some '\n')) := by
  obtain ⟨ordered, hord, _⟩ := order_some_perm opts files
  refine ⟨ordered, _, hord, ?_, rfl, ?_, ?_, ?_, ?_⟩
  · simp [main, getDirPath, hwd, hfiles, hord]
  · refine ⟨(if opts.list then listFiles ordered dirPath else printFiles ordered).data, ?_⟩
    rw [String.data_append, String.data_append, List.append_assoc]
    rfl
  · intro hl
    obtain ⟨pre, hpre⟩ := listFiles_ends_with_line_break ordered dirPath
    simp only [endsWithTwoBlankLines, hl, if_true, hpre, decide_eq_true_eq]
    right
    exact ⟨pre.data, by simp only [String.data_append, List.append_assoc]; rfl⟩
  · intro hl hnil
    subst hnil
    simp only [endsWithTwoBlankLines, hl, decide_eq_true_eq]
    left
    rfl
  · intro hl last hlast
    obtain ⟨init, hinit⟩ := List.getLast?_eq_some_iff.mp hlast
    obtain ⟨pre, hpre⟩ := printFilesFrom_ends_with_last init last 0 ""
    obtain ⟨front, c, hfield, hc⟩ := padLeft_forty_last (parseName last)
    have hout : ((if opts.list = true then listFiles ordered dirPath
        else printFiles ordered) ++ "\n" ++ "\n").data =
        (pre.data ++ front) ++ [c, '\n', '\n'] := by
      simp only [hl, Bool.false_eq_true, if_false, printFiles, hinit, hpre,
        String.data_append, hfield, List.append_assoc]
      rfl
    simp only [endsWithTwoBlankLines, decide_eq_true_eq]
    rw [hout, three_line_breaks_suffix, ← hc]
    constructor
    · intro h
      rcases h with h | h
      · have hlen := congrArg List.length h
        simp at hlen
        omega
      · exact h
    · intro h
      exact Or.inr h

theorem main_output_ends_with_two_line_breaks_witness :
    ((.ok "/home/u" : Except GoError String) = .ok "/home/u") ∧
    getFiles { list := true } exCwd = .ok [exHidden, exA, exB] ∧
    ∃ ordered out,
      order { list := true } [exHidden, exA, exB] = some ordered ∧
      main { list := true } (.ok "/home/u") exCwd = .ok out ∧
      endsWithTwoBlankLines out = true :=
  ⟨rfl, by decide,
    match main_output_ends_with_two_line_breaks { list := true } (.ok "/home/u") exCwd
      "/home/u" [exHidden, exA, exB] rfl (by decide) with
    | ⟨ordered, out, hord, hmain, _, _, hlong, _, _⟩ =>
      ⟨ordered, out, hord, hmain, hlong rfl⟩⟩

/-- Claim C11 as stated fails in grid mode on a list that is not empty: for
the directory holding `.hidden`, `a.txt` and `b.txt` the output ends with
`b.txt` and two line breaks, which is one blank line and not two. -/
theorem main_grid_ends_with_one_blank_line :
    main {} (.ok "/home/u") exCwd =
      .ok ("\n" ++ padLeft 40 ".hidden" ++ padLeft 40 "a.txt" ++ padLeft 40 "b.txt" ++
        "\n" ++ "\n") ∧
    ("b.txt" ++ "\n" ++ "\n").data <:+
      ("\n" ++ padLeft 40 ".hidden" ++ padLeft 40 "a.txt" ++ padLeft 40 "b.txt" ++
        "\n" ++ "\n").data ∧
    endsWithTwoBlankLines
      ("\n" ++ padLeft 40 ".hidden" ++ padLeft 40 "a.txt" ++ padLeft 40 "b.txt" ++
        "\n" ++ "\n") = false := by
  decide

/-! ## The hidden-name rule on particular names -/

/-- Claim C13 as stated fails on the name `..`: it begins with `.` and has
two characters, so `isHidden` returns `true` for it. -/
theorem isHidden_dotdot_not_false :
    (isHidden "..").2 = .ok true ∧ (isHidden "..").2 ≠ .ok false := by
  decide

/-- Claim C13, as the code has it.  `isHidden` does not classify the name
`.` as hidden and does classify the name `..` as hidden; neither call logs
anything. -/
theorem isHidden_dot_and_dotdot :
    isHidden "." = ([], .ok false) ∧ isHidden ".." = ([], .ok true) := by
  decide

/-- Claim C15, evaluated on the code.  Called with the empty name, `isHidden`
logs the warning and then stops with a run-time panic at `filename[0:1]`:
no boolean is returned. -/
theorem isHidden_empty_name_panics :
    isHidden "" = (["empty file name"], .error .panic) ∧
    ∀ b : Bool, (isHidden "").2 ≠ .ok b := by
  decide

/-- Claim C17.  On a non-empty name `isHidden` returns a boolean, without
logging, and the boolean is `true` exactly when the first character of the
name is `.` and the name is longer than one character. -/
theorem isHidden_iff_dot_and_longer (name : String) (hne : name ≠ "") :
    ∃ b : Bool, isHidden name = ([], .ok b) ∧
      (b = true ↔ (name.data.head? = some '.' ∧ name.length > 1)) := by
  refine ⟨hiddenName name, isHidden_of_ne_empty name hne, ?_⟩
  simp [hiddenName]

theorem isHidden_iff_dot_and_longer_witness :
    (".git" : String) ≠ "" ∧
    ∃ b : Bool, isHidden ".git" = ([], .ok b) ∧
      (b = true ↔ ((".git" : String).data.head? = some '.' ∧ (".git" : String).length > 1)) :=
  ⟨by decide, isHidden_iff_dot_and_longer ".git" (by decide)⟩

/-! ## The function `reverse` and the ordering step as a whole -/

/-- Claim C16.  For every entry list the swap loop of `reverse` ends, within
any bound of at least half the length, and returns the end-to-end reversal:
a list of the same length whose element at index `i` is the element of the
input at index `n-1-i`. -/
theorem reverse_is_end_to_end_reversal (files : List FileInfo) :
    ∃ out, reverse files = some out ∧
      out = files.reverse ∧
      out.length = files.length ∧
      (∀ i, i < files.length → out[i]? = files[files.length - 1 - i]?) ∧
      ∀ fuel, files.length ≤ 2 * fuel + 1 →
        reverseLoop fuel files 0 ((files.length : Int) - 1) = some out := by
  refine ⟨files.reverse, reverse_eq_reverse files, rfl, List.length_reverse files, ?_, ?_⟩
  · intro i hi
    exact List.getElem?_reverse hi
  · intro fuel hfuel
    have h := reverseLoop_middle fuel [] files [] hfuel
    simpa using h

/-- Claim C18.  For every combination of `-S` and `-r` the ordering step
returns a list, and that list is a permutation of the collected list. -/
theorem order_is_permutation (opts : Options) (files : List FileInfo) :
    ∃ out, order opts files = some out ∧ out.Perm files :=
  order_some_perm opts files

/-! ## The recursive collector with `-a` set, and its exact result without -/

/-- What the callback of `getRecursiveFiles` does when it returns and `-a`
is set: there was no error, the name is not empty, and the entry is
appended. -/
theorem walkFn_ok_all (opts : Options) (hall : opts.all = true) (info : FileInfo)
    (err : Option GoError) (st : List FileInfo) (r : Option GoError) (st1 : List FileInfo)
    (h : walkFn opts info err st = .ok (r, st1)) :
    err = none ∧ r = none ∧ st1 = st ++ [info] := by
  cases err with
  | some e => simp [walkFn] at h
  | none =>
    by_cases hne : info.name = ""
    · simp [walkFn, hne, isHidden_empty] at h
    · unfold walkFn at h
      rw [isHidden_of_ne_empty _ hne] at h
      simp [hall] at h
      exact ⟨rfl, h.1.symm, h.2.symm⟩

mutual
/-- The walk with `-a` set, when it returns: it has appended every entry of
the tree, in walk order, and it reports no error. -/
theorem walk_with_all (opts : Options) (hall : opts.all = true) :
    ∀ (n : Node) (above : List String) (st : List FileInfo) (r : Option GoError)
      (st1 : List FileInfo),
      walk (walkFn opts) n st = .ok (r, st1) →
      st1 = st ++ (walkEntries above n).map Prod.snd ∧ r = none
  | .mk info u children, above, st, r, st1, h => by
    unfold walk at h
    unfold walkEntries
    by_cases hd : info.isDir = true
    · simp only [hd, Bool.not_true, Bool.false_eq_true, if_false] at h
      rw [if_pos hd]
      cases hfn : walkFn opts info (if u = true then some GoError.other else none) st with
      | error a => simp [hfn] at h
      | ok res =>
        obtain ⟨err1, st2⟩ := res
        obtain ⟨herr, hr, hst⟩ := walkFn_ok_all opts hall info _ st err1 st2 hfn
        rw [herr] at hfn h
        subst hr hst
        simp only [hfn, Option.isSome_none, Bool.false_or, Bool.false_eq_true, if_false] at h
        obtain ⟨hst1, hr1⟩ :=
          walkChildren_with_all opts hall children (above ++ [info.name]) _ r st1 h
        refine ⟨?_, hr1⟩
        rw [hst1]
        simp
    · have hd2 : info.isDir = false := by simpa using hd
      simp only [hd2, Bool.not_false, if_true] at h
      rw [if_neg hd]
      obtain ⟨_, hr, hst⟩ := walkFn_ok_all opts hall info _ st r st1 h
      exact ⟨by simp [hst], hr⟩
/-- The same for the loop over the children of a directory. -/
theorem walkChildren_with_all (opts : Options) (hall : opts.all = true) :
    ∀ (cs : List Node) (above : List String) (st : List FileInfo) (r : Option GoError)
      (st1 : List FileInfo),
      walkChildren (walkFn opts) cs st = .ok (r, st1) →
      st1 = st ++ (walkEntriesList above cs).map Prod.snd ∧ r = none
  | [], above, st, r, st1, h => by
    unfold walkChildren at h
    unfold walkEntriesList
    simp only [Except.ok.injEq, Prod.mk.injEq] at h
    simp [h.1, h.2]
  | c :: cs, above, st, r, st1, h => by
    unfold walkChildren at h
    unfold walkEntriesList
    cases hw : walk (walkFn opts) c st with
    | error a => simp [hw] at h
    | ok res =>
      obtain ⟨e, st2⟩ := res
      obtain ⟨hst2, he⟩ := walk_with_all opts hall c above st e st2 hw
      subst he
      have hrest : walkChildren (walkFn opts) cs st2 = .ok (r, st1) := by
        simpa [hw] using h
      obtain ⟨hst1, hr⟩ := walkChildren_with_all opts hall cs above st2 r st1 hrest
      refine ⟨?_, hr⟩
      rw [hst1, hst2]
      simp
end

/-- With `-a` set, the list returned by `getRecursiveFiles` is the whole walk
sequence. -/
theorem getRecursiveFiles_with_all (opts : Options) (cwd : Node) (files : List FileInfo)
    (hall : opts.all = true) (h : getRecursiveFiles opts cwd = .ok files) :
    files = (walkEntries [] (lstatDot cwd)).map Prod.snd := by
  unfold getRecursiveFiles filepathWalk at h
  cases hw : walk (walkFn opts) (lstatDot cwd) [] with
  | error a => simp [hw] at h
  | ok res =>
    obtain ⟨r, st1⟩ := res
    obtain ⟨hst, hr⟩ := walk_with_all opts hall (lstatDot cwd) [] [] r st1 hw
    subst hr
    simp [hw] at h
    rw [← h, hst]
    simp

/-- Claim C12.  With `-a` set, a list returned by `getRecursiveFiles` is the
sequence of all entries of the walk from `.`, the root first, each once and
in depth-first order: nothing is filtered and no subtree is pruned.  On a
tree whose names are non-empty and whose directories can be read a list is
returned. -/
theorem getRecursiveFiles_all_emits_whole_walk (opts : Options) (cwd : Node)
    (hall : opts.all = true) :
    (∀ files, getRecursiveFiles opts cwd = .ok files →
      files = (walkEntries [] (lstatDot cwd)).map Prod.snd) ∧
    (readable (lstatDot cwd) = true → ∃ files, getRecursiveFiles opts cwd = .ok files) :=
  ⟨fun files h => getRecursiveFiles_with_all opts cwd files hall h,
    getRecursiveFiles_returns opts cwd⟩

theorem getRecursiveFiles_all_emits_whole_walk_witness :
    ({ recursive := true, all := true } : Options).all = true ∧
    (∀ files, getRecursiveFiles { recursive := true, all := true } exTree = .ok files →
      files = (walkEntries [] (lstatDot exTree)).map Prod.snd) ∧
    ∃ files, getRecursiveFiles { recursive := true, all := true } exTree = .ok files :=
  ⟨rfl,
    (getRecursiveFiles_all_emits_whole_walk { recursive := true, all := true } exTree rfl).1,
    (getRecursiveFiles_all_emits_whole_walk { recursive := true, all := true } exTree rfl).2
      (by decide)⟩

/-- On the walk from the root `.`, leaving the root out of the chain of
directories does not change which entries are kept. -/
theorem shown_eq_shownBelowRoot (cwd : Node) :
    ∀ e ∈ walkEntries [] (lstatDot cwd), shown e = shownBelowRoot e := by
  obtain ⟨info, u, children⟩ := cwd
  intro e he
  unfold lstatDot walkEntries at he
  rcases List.mem_cons.mp he with h | h
  · subst h
    simp [shown, shownBelowRoot]
  · by_cases hd : info.isDir = true
    · simp only [hd, if_true, List.nil_append] at h
      obtain ⟨t, ht⟩ := walkEntriesList_above ["."] children e h
      have hdot : hiddenName "." = false := by decide
      simp [shown, shownBelowRoot, ← ht, hdot]
    · simp [hd] at h

/-- Claim C19.  With `-a` not set, a list returned by `getRecursiveFiles` is
exactly the walk sequence restricted to the entries whose own name is not
hidden and none of whose directories below the root has a hidden name: each
such entry once, in walk order, and nothing else.  On a tree whose names are
non-empty and whose directories can be read a list is returned. -/
theorem getRecursiveFiles_keeps_all_visible (opts : Options) (cwd : Node)
    (hall : opts.all = false) :
    (∀ files, getRecursiveFiles opts cwd = .ok files →
      files = ((walkEntries [] (lstatDot cwd)).filter shownBelowRoot).map Prod.snd) ∧
    (readable (lstatDot cwd) = true → ∃ files, getRecursiveFiles opts cwd = .ok files) := by
  refine ⟨?_, getRecursiveFiles_returns opts cwd⟩
  intro files h
  rw [getRecursiveFiles_without_all opts cwd files hall h]
  congr 1
  apply List.filter_congr
  exact shown_eq_shownBelowRoot cwd

theorem getRecursiveFiles_keeps_all_visible_witness :
    ({ recursive := true } : Options).all = false ∧
    (∀ files, getRecursiveFiles { recursive := true } exTree = .ok files →
      files = ((walkEntries [] (lstatDot exTree)).filter shownBelowRoot).map Prod.snd) ∧
    ∃ files, getRecursiveFiles { recursive := true } exTree = .ok files :=
  ⟨rfl, (getRecursiveFiles_keeps_all_visible { recursive := true } exTree rfl).1,
    (getRecursiveFiles_keeps_all_visible { recursive := true } exTree rfl).2 (by decide)⟩

/-! ## The timestamp -/

theorem toDigitsCore_length_pos (f n : Nat) (hf : 0 < f) :
    0 < (Nat.toDigitsCore 10 f n []).length := by
  cases f with
  | zero => omega
  | succ f =>
    simp only [Nat.toDigitsCore]
    split
    · simp
    · rw [Nat.toDigitsCore_lens_eq]
      omega

theorem repr_length_ge_two (n : Nat) (h : 10 ≤ n) : 2 ≤ (Nat.repr n).length := by
  have hdiv : n / 10 ≠ 0 := by omega
  have hpos := toDigitsCore_length_pos n (n / 10) (by omega)
  simp only [Nat.repr, Nat.toDigits, Nat.toDigitsCore, hdiv, if_false, List.asString,
    String.length_mk]
  rw [Nat.toDigitsCore_lens_eq]
  omega

theorem repr_length_one (n : Nat) (h : n < 10) : (Nat.repr n).length = 1 := by
  interval_cases n <;> rfl

theorem fmtZero2_length (n : Nat) : (fmtZero2 n).length = max 2 (Nat.repr n).length := by
  unfold fmtZero2
  rw [String.length_append, String.length_mk, List.length_replicate]
  omega

/-- Claim C14.  `parseTime` returns the month, `/`, the day, `/`, the year,
two spaces, the hour, `:`, the minute.  Month, day, hour and minute are
written in decimal with zeros in front up to two characters: one zero and
the digit below ten, the plain decimal from ten on, always at least two
characters and exactly two below one hundred.  The year is the plain decimal
with no padding. -/
theorem parseTime_layout (t : Time) :
    parseTime t =
      fmtZero2 t.month ++ "/" ++ fmtZero2 t.day ++ "/" ++ fmtInt t.year ++ "  " ++
        fmtZero2 t.hour ++ ":" ++ fmtZero2 t.minute ∧
    (∀ n : Nat,
      2 ≤ (fmtZero2 n).length ∧
      (n < 10 → fmtZero2 n = "0" ++ Nat.repr n) ∧
      (10 ≤ n → fmtZero2 n = Nat.repr n) ∧
      (n < 100 → (fmtZero2 n).length = 2)) ∧
    (∀ y : Nat, fmtInt (y : Int) = Nat.repr y) := by
  refine ⟨rfl, ?_, fun y => rfl⟩
  intro n
  refine ⟨by rw [fmtZero2_length]; omega, ?_, ?_, ?_⟩
  · intro h
    unfold fmtZero2
    rw [repr_length_one n h]
    rfl
  · intro h
    have h2 := repr_length_ge_two n h
    unfold fmtZero2
    have h0 : 2 - (Nat.repr n).length = 0 := by omega
    rw [h0]
    rfl
  · intro h
    have hle := Nat.repr_length n 2 (by decide) (by omega)
    rw [fmtZero2_length]
    omega

theorem parseTime_layout_witness :
    parseTime exTime = "03/09/2024  07:05" ∧
    fmtZero2 exTime.month = "0" ++ Nat.repr exTime.month ∧
    fmtZero2 12 = Nat.repr 12 ∧
    (fmtZero2 exTime.minute).length = 2 := by
  refine ⟨?_, ((parseTime_layout exTime).2.1 exTime.month).2.1 (by decide),
    ((parseTime_layout exTime).2.1 12).2.2.1 (by decide),
    ((parseTime_layout exTime).2.1 exTime.minute).2.2.2 (by decide)⟩
  rw [(parseTime_layout exTime).1]
  decide

/-! ## Sort and reverse against the stable ascending sort -/

/-- Insertion under a comparison that only tells apart entries of different
sizes does not change the order among the entries of one size. -/
theorem stableInsert_key_filter {α : Type} (size : α → Int) (less : α → α → Bool)
    (hless : ∀ y x, less y x = true → size y ≠ size x) (s : Int) (x : α) (l : List α) :
    (stableInsert less x l).filter (fun e => decide (size e = s)) =
      (x :: l).filter (fun e => decide (size e = s)) := by
  induction l with
  | nil => simp [stableInsert]
  | cons y ys ih =>
    unfold stableInsert
    by_cases hlt : less y x = true
    · rw [if_pos hlt]
      have hyx : size y ≠ size x := hless y x hlt
      rw [List.filter_cons, ih]
      by_cases hx : size x = s
      · have hys : ¬ size y = s := by
          intro h
          exact hyx (h.trans hx.symm)
        simp [List.filter_cons, hx, hys]
      · simp [List.filter_cons, hx]
    · rw [if_neg hlt]

/-- The sort under such a comparison keeps, for every size, the entries of
that size in their input order. -/
theorem sortSliceStable_key_filter {α : Type} (size : α → Int) (less : α → α → Bool)
    (hless : ∀ y x, less y x = true → size y ≠ size x) (s : Int) (l : List α) :
    (sortSliceStable less l).filter (fun e => decide (size e = s)) =
      l.filter (fun e => decide (size e = s)) := by
  induction l with
  | nil => simp [sortSliceStable]
  | cons x xs ih =>
    unfold sortSliceStable
    rw [stableInsert_key_filter size less hless, List.filter_cons, List.filter_cons, ih]

theorem stableInsert_map {α β : Type} (f : α → β) (less : β → β → Bool) (x : α)
    (l : List α) :
    (stableInsert (fun a b => less (f a) (f b)) x l).map f =
      stableInsert less (f x) (l.map f) := by
  induction l with
  | nil => simp [stableInsert]
  | cons y ys ih =>
    unfold stableInsert
    by_cases hlt : less (f y) (f x) = true
    · simp [hlt, ih]
    · simp [hlt]

/-- Sorting entries by a comparison of what is recorded of them and then
reading the records off is sorting the records. -/
theorem sortSliceStable_map {α β : Type} (f : α → β) (less : β → β → Bool) (l : List α) :
    (sortSliceStable (fun a b => less (f a) (f b)) l).map f =
      sortSliceStable less (l.map f) := by
  induction l with
  | nil => simp [sortSliceStable]
  | cons x xs ih =>
    unfold sortSliceStable
    rw [stableInsert_map, List.map_cons, ih]

/-- In a list without repetition two elements cannot stand in both orders. -/
theorem nodup_not_both_orders {α : Type} (c : List α) (a b : α) (hc : c.Nodup)
    (h1 : [a, b].Sublist c) (h2 : [b, a].Sublist c) : False := by
  induction c with
  | nil => cases h1
  | cons x t ih =>
    have hx : x ∉ t := (List.nodup_cons.mp hc).1
    have ht : t.Nodup := (List.nodup_cons.mp hc).2
    cases h1 with
    | cons _ h1t =>
      cases h2 with
      | cons _ h2t => exact ih ht h1t h2t
      | cons₂ _ h2t =>
        exact hx (h1t.subset (by simp))
    | cons₂ _ h1t =>
      cases h2 with
      | cons _ h2t => exact hx (h2t.subset (by simp))
      | cons₂ _ h2t => exact hx (h1t.subset (by simp))

/-- The ordering step on records is `orderEntries` with `Size()` read off
the record. -/
theorem order_eq_orderEntries (opts : Options) (files : List FileInfo) :
    order opts files = orderEntries FileInfo.size opts files := rfl

/-- The entries of a list, each with its position, are pairwise distinct. -/
theorem enum_nodup {α : Type} (l : List α) : l.enum.Nodup :=
  List.Nodup.of_map Prod.fst (List.nodup_enum_map_fst l)

/-- Claim C20.  With `-S` and `-r` both set the ordering step returns the
reversal of the stable descending sort, so for every size the entries of that
size stand in the reverse of their input order.  Run on the entries kept
apart by their position in the collected list, the same step gives the same
records in the same order, and whenever two entries share a size its result
differs from the stable ascending sort by size of the input. -/
theorem order_sort_reverse_reverses_ties (opts : Options) (files : List FileInfo)
    (hS : opts.sort = true) (hr : opts.reverse = true) :
    ∃ out, order opts files = some out ∧
      out = (sortSliceStable sizeLess files).reverse ∧
      (∀ s : Int, out.filter (fun f => decide (f.size = s)) =
        (files.filter (fun f => decide (f.size = s))).reverse) ∧
      ∃ entries : List (Nat × FileInfo),
        orderEntries (fun e => e.2.size) opts files.enum = some entries ∧
        entries.map Prod.snd = out ∧
        (∀ s : Int, entries.filter (fun e => decide (e.2.size = s)) =
          (files.enum.filter (fun e => decide (e.2.size = s))).reverse) ∧
        ∀ a b : Nat × FileInfo, [a, b].Sublist files.enum → a.2.size = b.2.size →
          entries ≠
            sortSliceStable (fun x y => decide (x.2.size < y.2.size)) files.enum := by
  have hties : ∀ s : Int,
      (sortSliceStable sizeLess files).reverse.filter (fun f => decide (f.size = s)) =
        (files.filter (fun f => decide (f.size = s))).reverse := by
    intro s
    rw [List.filter_reverse, sortSliceStable_filter]
  have htiesE : ∀ s : Int,
      (sortSliceStable (fun x y : Nat × FileInfo => decide (x.2.size > y.2.size))
          files.enum).reverse.filter (fun e => decide (e.2.size = s)) =
        (files.enum.filter (fun e => decide (e.2.size = s))).reverse := by
    intro s
    rw [List.filter_reverse,
      sortSliceStable_key_filter (fun e : Nat × FileInfo => e.2.size) _
        (by
          intro y x h
          simp only [gt_iff_lt, decide_eq_true_eq] at h
          show y.2.size ≠ x.2.size
          omega)]
  refine ⟨(sortSliceStable sizeLess files).reverse, ?_, rfl, hties,
    (sortSliceStable (fun x y : Nat × FileInfo => decide (x.2.size > y.2.size))
      files.enum).reverse, ?_, ?_, htiesE, ?_⟩
  · simp [order, hS, hr, reverse_eq_reverse]
  · simp [orderEntries, hS, hr, reverse_eq_reverse]
  · rw [List.map_reverse]
    congr 1
    have h := sortSliceStable_map (Prod.snd : Nat × FileInfo → FileInfo) sizeLess files.enum
    rw [List.enum_map_snd] at h
    exact h
  · intro a b hab hsize heq
    have hpal : (files.enum.filter (fun e => decide (e.2.size = a.2.size))).reverse =
        files.enum.filter (fun e => decide (e.2.size = a.2.size)) := by
      rw [← htiesE a.2.size, heq,
        sortSliceStable_key_filter (fun e : Nat × FileInfo => e.2.size) _
          (by
          intro y x h
          simp only [gt_iff_lt, decide_eq_true_eq] at h
          show y.2.size ≠ x.2.size
          omega)]
    have hsub : [a, b].Sublist
        (files.enum.filter (fun e => decide (e.2.size = a.2.size))) := by
      have h := hab.filter (fun e => decide (e.2.size = a.2.size))
      simpa [List.filter_cons, hsize] using h
    have hsub2 : [b, a].Sublist
        (files.enum.filter (fun e => decide (e.2.size = a.2.size))) := by
      have h := hsub.reverse
      rw [hpal] at h
      simpa using h
    exact nodup_not_both_orders _ a b ((enum_nodup files).filter _) hsub hsub2

theorem order_sort_reverse_reverses_ties_witness :
    ({ sort := true, reverse := true } : Options).sort = true ∧
    ({ sort := true, reverse := true } : Options).reverse = true ∧
    [(0, exA), (2, exA)].Sublist [exA, exB, exA].enum ∧
    ∃ out, order { sort := true, reverse := true } [exA, exB, exA] = some out ∧
      ∃ entries : List (Nat × FileInfo),
        orderEntries (fun e => e.2.size) { sort := true, reverse := true }
          [exA, exB, exA].enum = some entries ∧
        entries.map Prod.snd = out ∧
        entries ≠
          sortSliceStable (fun x y => decide (x.2.size < y.2.size)) [exA, exB, exA].enum :=
  ⟨rfl, rfl, by decide,
    match order_sort_reverse_reverses_ties { sort := true, reverse := true }
      [exA, exB, exA] rfl rfl with
    | ⟨out, hout, _, _, entries, hent, hmap, _, hne⟩ =>
      ⟨out, hout, entries, hent, hmap, hne (0, exA) (2, exA) (by decide) rfl⟩⟩

end Gsh
